import Mathlib

/-!
# Verification of dgl sparse sampling and reduction kernels

Shallow embedding of the CPU reference algorithms of the dgl repository:
row-wise sampling / top-k selection over CSR and COO adjacency
(`src/array/cpu/rowwise_topk.cc`, `rowwise_sampling.cc`), broadcast shape
inference (`kernel/binary_reduce.cc`), the CSR SpMM kernel loop
(`array/cuda/spmm.cuh`), COO entry removal (`array/cpu/coo_remove_if.cc`),
sparse-matrix compaction (`sparse/matrix_ops.cc`), graphbolt
`UniqueAndCompact` (`cuda/unique_and_compact_impl.cu`), and the
`CpuIdHashMap` id-compaction hash map.

Machine integers (`int32_t`/`int64_t` ids and dimensions) are embedded as
`Int` / `Nat`; the floating weight/probability inputs of the claims are
exactly representable, so weights are embedded as `Rat` and feature values
as `Int`, on which all the comparisons appearing in the code are exact.
Arrays are embedded as `List`s read with `List.getD`, matching the C++
raw-pointer reads at in-bounds indices.
-/

namespace DGL

/-- COO adjacency, after `include/dgl/aten/coo.h`: `(num_rows, num_cols,
row[nnz], col[nnz], data[nnz]?)`; `data`, when present, maps a position to
its original edge id. -/
structure COOMatrix where
  num_rows : Nat
  num_cols : Nat
  row : List Int
  col : List Int
  data : Option (List Nat)
deriving DecidableEq

/-- CSR adjacency, after `include/dgl/aten/csr.h`: `indices[indptr[r] :
indptr[r+1]]` are the neighbor columns of row `r`. -/
structure CSRMatrix where
  num_rows : Nat
  num_cols : Nat
  indptr : List Nat
  indices : List Int
  data : Option (List Nat)
deriving DecidableEq

/-! ## COORemoveIf (`array/cpu/coo_remove_if.cc`) -/

/-- `const IdType eid = data ? data[i] : i;` — the edge id of position `i`. -/
def cooEid (data : Option (List Nat)) (i : Nat) : Nat :=
  match data with
  | some d => d.getD i 0
  | none => i

/-- One iteration of the `COORemoveIf` loop: append the entry at position `i`
to the three output buffers when its value differs from `criteria`. -/
def cooRemoveIfStep (coo : COOMatrix) (values : List Int) (criteria : Int)
    (acc : List Int × List Int × List Nat) (i : Nat) :
    List Int × List Int × List Nat :=
  let eid := cooEid coo.data i
  if values.getD eid 0 ≠ criteria then
    (acc.1 ++ [coo.row.getD i 0], acc.2.1 ++ [coo.col.getD i 0],
      acc.2.2 ++ [eid])
  else acc

/-- `COORemoveIf` (CPU): scan the `nnz` entries in order, keeping those whose
associated value (indexed by edge id) differs from `criteria`; the result
reuses `num_rows`/`num_cols` and carries the kept edge ids as `data`. -/
def COORemoveIf (coo : COOMatrix) (values : List Int) (criteria : Int) :
    COOMatrix :=
  let nnz := coo.row.length
  let res := (List.range nnz).foldl (cooRemoveIfStep coo values criteria)
    ([], [], [])
  { num_rows := coo.num_rows, num_cols := coo.num_cols,
    row := res.1, col := res.2.1, data := some res.2.2 }

/-! ## SpMM over CSR (`array/cuda/spmm.cuh`, `SpMMCsrKernel`)

Each output element `(ty, tx)` is computed independently: a local
accumulator starts at the reduction identity `ReduceOp::zero` and the
binary operator is folded over the nonzeros `i ∈ [indptr[ty],
indptr[ty+1])` of row `ty`. The grid-stride loops only distribute the
`(ty, tx)` pairs over threads, so the per-element computation below is the
whole kernel. Feature tensors are embedded as functions from (node or
edge id, feature index) to value. -/

/-- The inner nonzero loop of `SpMMCsrKernel`: starting from
`local_accum = zero`, for each `i` in `[indptr[ty], indptr[ty+1])` fold
`reduce acc (binop ufeat[indices[i]][tx] efeat[edge_map[i]][tx])`. -/
def SpMMCsrKernel (zero : Int) (binop : Int → Int → Int)
    (reduce : Int → Int → Int) (ufeat efeat : Nat → Nat → Int)
    (indptr : Nat → Nat) (indices : Nat → Nat) (edge_map : Nat → Nat)
    (ty tx : Nat) : Int :=
  (List.range' (indptr ty) (indptr (ty + 1) - indptr ty)).foldl
    (fun acc i => reduce acc (binop (ufeat (indices i) tx)
      (efeat (edge_map i) tx))) zero

/-! ## Uniform row-wise sampling (`array/cpu/rowwise_sampling.cc`) -/

/-- `GetSamplingUniformNumPicksFn`: the per-row pick count for uniform
sampling. The closure ignores `rowid`, `off`, `col` and `data`; `len` is the
row's neighbor-list length. -/
def GetSamplingUniformNumPicksFn (num_samples : Int) (replace : Bool)
    (len : Int) : Int :=
  if num_samples = -1 then len
  else if replace then (if len = 0 then 0 else num_samples)
  else min len num_samples

/-- Row extent lookup used by the pick engine on CSR: `off = indptr[r]`. -/
def csrRowOff (mat : CSRMatrix) (r : Nat) : Nat := mat.indptr.getD r 0

/-- Row length on CSR: `len = indptr[r+1] - indptr[r]`. -/
def csrRowLen (mat : CSRMatrix) (r : Nat) : Nat :=
  mat.indptr.getD (r + 1) 0 - mat.indptr.getD r 0

/-- Row length on COO: the bucketing step counts the entries of row `r`. -/
def cooRowLen (coo : COOMatrix) (r : Int) : Nat :=
  (coo.row.filter (fun x => x = r)).length

/-- Modelled from the spec: the generic two-phase row-wise pick engine
(`CSRRowWisePick` / `COORowWisePick` of `array/cpu/rowwise_pick.h`, which is
not among the sources; §4.2). For one queried row `r` with extent
`(off, len)`, phase one evaluates the num-picks policy to obtain `k`, and
phase two lets the pick policy write exactly `k` chosen positions into the
`k` slots of the row's segment of the output-index buffer. `pick_fn r off
len k j` is the position written into slot `j`. The engine output is the
concatenation of the per-row segments. -/
def rowWisePickRow (num_picks_fn : Nat → Nat → Nat → Int)
    (pick_fn : Nat → Nat → Nat → Nat → Nat → Nat) (off len r : Nat) :
    List Nat :=
  let k := (num_picks_fn r off len).toNat
  (List.range k).map (fun j => pick_fn r off len k j)

/-- Modelled from the spec: the full engine output over a row list on CSR
(§4.2, phase two followed by the gather of the per-row segments). -/
def CSRRowWisePickIdx (mat : CSRMatrix) (rows : List Nat)
    (num_picks_fn : Nat → Nat → Nat → Int)
    (pick_fn : Nat → Nat → Nat → Nat → Nat → Nat) : List Nat :=
  rows.flatMap (fun r =>
    rowWisePickRow num_picks_fn pick_fn (csrRowOff mat r) (csrRowLen mat r) r)

/-! ## Top-k row-wise pick (`array/cpu/rowwise_topk.cc`, `GetTopkPickFn`)

The pick function fills `idx = iota(off, off + len)`, runs `std::sort`
with the weight comparator, and copies the first `k` entries to `out_idx`.
`std::sort` guarantees only a comparator-sorted permutation — it is *not*
stable — so the pick is embedded as a relation: `out` is a possible
outcome iff it is the `k`-prefix of some comparator-sorted permutation of
the row positions. Weights are `Rat` (the claims' float weights are
exactly representable and only compared). -/

/-- The weight keyed by position `i`: `wdata[data[i]]` when the adjacency
carries explicit edge ids, else `wdata[i]`. -/
def topkWeight (wdata : List Rat) (data : Option (List Nat)) (i : Nat) :
    Rat :=
  match data with
  | some d => wdata.getD (d.getD i 0) 0
  | none => wdata.getD i 0

/-- The strict comparator handed to `std::sort`: `<` on weights when
ascending, `>` when descending. -/
def topkCmp (wdata : List Rat) (data : Option (List Nat)) (ascending : Bool)
    (i j : Nat) : Prop :=
  if ascending then topkWeight wdata data i < topkWeight wdata data j
  else topkWeight wdata data i > topkWeight wdata data j

instance (wdata : List Rat) (data : Option (List Nat)) (ascending : Bool)
    (i j : Nat) : Decidable (topkCmp wdata data ascending i j) := by
  unfold topkCmp; infer_instance

/-- Possible outcomes of the top-k pick function for one row: `out` is the
`k`-prefix of some permutation `idx` of the row positions
`[off, off + len)` on which no element strictly compares below a later one
(the `std::sort` postcondition for a strict weak order). -/
def TopkPickOutcome (wdata : List Rat) (data : Option (List Nat))
    (ascending : Bool) (k off len : Nat) (out : List Nat) : Prop :=
  ∃ idx : List Nat, idx.Perm (List.range' off len) ∧
    List.Pairwise (fun i j => ¬ topkCmp wdata data ascending j i) idx ∧
    out = idx.take k

/-- The *claimed* behavior (spec: "Tie-break: stable sort"), for comparison:
the `k`-prefix of the stable sort of the row positions. `List.insertionSort`
with `le i j := ¬ cmp j i` is a stable sort: each element is inserted
before the first later-ranked element it does not strictly lose to, so
equal-weight positions retain their original order. -/
def topkStableOut (wdata : List Rat) (data : Option (List Nat))
    (ascending : Bool) (k off len : Nat) : List Nat :=
  ((List.range' off len).insertionSort
    (fun i j => ¬ topkCmp wdata data ascending j i)).take k

/-- Per-row segment of uniform row-wise sampling over CSR
(`CSRRowWiseSamplingUniform` composes the uniform num-picks and pick
policies with the pick engine). -/
def CSRUniformPickedRow (mat : CSRMatrix) (num_samples : Int) (replace : Bool)
    (pick_fn : Nat → Nat → Nat → Nat → Nat → Nat) (r : Nat) : List Nat :=
  rowWisePickRow
    (fun _ _ len => GetSamplingUniformNumPicksFn num_samples replace len)
    pick_fn (csrRowOff mat r) (csrRowLen mat r) r

/-- Per-row segment of uniform row-wise sampling over COO
(`COORowWiseSamplingUniform`; the engine buckets the COO entries by row
first, so the row's length is its entry count). -/
def COOUniformPickedRow (coo : COOMatrix) (num_samples : Int) (replace : Bool)
    (pick_fn : Nat → Nat → Nat → Nat → Nat → Nat) (r : Nat) : List Nat :=
  rowWisePickRow
    (fun _ _ len => GetSamplingUniformNumPicksFn num_samples replace len)
    pick_fn 0 (cooRowLen coo r) r

/-! ## Broadcast shape inference (`kernel/binary_reduce.cc`)

`CalcBcastInfo` walks the two trailing feature shapes (`shape[1:]` of the
lhs/rhs tensors) from the rightmost axis. Shapes are embedded as the
trailing-dimension lists. -/

/-- `(ndim - 1 - j < 1) ? 1 : shape[ndim - 1 - j]`: the `j`-th axis from the
right of a trailing shape, `1` once the shape runs out of axes. -/
def bcastDim (ts : List Int) (j : Nat) : Int :=
  if j < ts.length then ts.getD (ts.length - 1 - j) 1 else 1

/-- The broadcast axis pair at `j` is invalid when the dimensions differ and
neither is `1` (`LOG(FATAL)` in the source). -/
def bcastBad (lts rts : List Int) (j : Nat) : Prop :=
  bcastDim lts j ≠ bcastDim rts j ∧ bcastDim lts j ≠ 1 ∧ bcastDim rts j ≠ 1

instance (lts rts : List Int) (j : Nat) : Decidable (bcastBad lts rts j) := by
  unfold bcastBad; infer_instance

/-- Loop state of `CalcBcastInfo`: the four shape vectors under
construction (in `push_back` order, reversed at the end) and the pending
accumulation run. -/
structure BcastLoopSt where
  lhs_shape : List Int
  rhs_shape : List Int
  out_shape : List Int
  real_out_shape : List Int
  accum : Int
deriving DecidableEq

/-- One iteration (axis `j`) of the `CalcBcastInfo` loop. -/
def calcBcastStep (lts rts : List Int) (st : BcastLoopSt) (j : Nat) :
    Except String BcastLoopSt :=
  let dl := bcastDim lts j
  let dr := bcastDim rts j
  if dl ≠ dr then
    if dl ≠ 1 ∧ dr ≠ 1 then
      Except.error "Invalid broadcasting between feature shapes"
    else
      let st1 := if st.accum ≠ 0 then
        { st with lhs_shape := st.lhs_shape ++ [st.accum],
                  rhs_shape := st.rhs_shape ++ [st.accum],
                  out_shape := st.out_shape ++ [st.accum], accum := 0 }
        else st
      Except.ok
        { st1 with lhs_shape := st1.lhs_shape ++ [dl],
                   rhs_shape := st1.rhs_shape ++ [dr],
                   out_shape := st1.out_shape ++ [max dl dr],
                   real_out_shape := st1.real_out_shape ++ [max dl dr] }
  else
    Except.ok { st with
      accum := if st.accum = 0 then dl else st.accum * dl,
      real_out_shape := st.real_out_shape ++ [max dl dr] }

/-- `ComputeStride`: row-major strides, `ret[i] = Π_{k > i} shape[k]` (the
closed form of the right-to-left product loop). -/
def ComputeStride (shape : List Int) : List Int :=
  (List.range shape.length).map (fun i => ((shape.drop (i + 1)).foldl
    (· * ·) 1))

/-- Result record of `CalcBcastInfo`. -/
structure BcastInfo where
  lhs_shape : List Int
  rhs_shape : List Int
  out_shape : List Int
  real_out_shape : List Int
  lhs_stride : List Int
  rhs_stride : List Int
  out_stride : List Int
deriving DecidableEq

/-- `CalcBcastInfo`: run the axis loop over `j < max(ndim_l, ndim_r) - 1`,
flush the pending accumulation run, reverse the collected lists back to
left-to-right order, and compute the strides. -/
def CalcBcastInfo (lts rts : List Int) : Except String BcastInfo :=
  match (List.range (max lts.length rts.length)).foldlM
      (calcBcastStep lts rts) ⟨[], [], [], [], 0⟩ with
  | Except.error e => Except.error e
  | Except.ok st =>
    let st := if st.accum ≠ 0 then
      { st with lhs_shape := st.lhs_shape ++ [st.accum],
                rhs_shape := st.rhs_shape ++ [st.accum],
                out_shape := st.out_shape ++ [st.accum], accum := 0 }
      else st
    Except.ok
      { lhs_shape := st.lhs_shape.reverse,
        rhs_shape := st.rhs_shape.reverse,
        out_shape := st.out_shape.reverse,
        real_out_shape := st.real_out_shape.reverse,
        lhs_stride := ComputeStride st.lhs_shape.reverse,
        rhs_stride := ComputeStride st.rhs_shape.reverse,
        out_stride := ComputeStride st.out_shape.reverse }

/-- `InferBinaryFeatureShape` returns `CalcBcastInfo(...).real_out_shape`. -/
def InferBinaryFeatureShape (lts rts : List Int) :
    Except String (List Int) :=
  match CalcBcastInfo lts rts with
  | Except.error e => Except.error e
  | Except.ok info => Except.ok info.real_out_shape

/-! ## Probability-weighted row-wise sampling
(`array/cpu/rowwise_sampling.cc`, `GetSamplingNumPicksFn` /
`GetSamplingPickFn`)

Probabilities are `Rat`; `prob` is indexed by edge id (`data[off+j]` when
the adjacency has explicit edge ids, else the position `off+j` itself —
the same `eid` computation as `cooEid`). -/

/-- The loop of `GetSamplingNumPicksFn` counting the row's edges with
probability `> 0`. -/
def numPossiblePicks (prob : List Rat) (data : Option (List Nat))
    (off len : Nat) : Nat :=
  ((List.range len).filter
    (fun j => 0 < prob.getD (cooEid data (off + j)) 0)).length

/-- `GetSamplingNumPicksFn`: count positive-probability edges, then apply
the replace / no-replace arithmetic. -/
def GetSamplingNumPicksFn (num_samples : Int) (prob : List Rat)
    (replace : Bool) (data : Option (List Nat)) (off len : Nat) : Int :=
  if num_samples = -1 then numPossiblePicks prob data off len
  else if replace then (if len = 0 then 0 else num_samples)
  else min num_samples (numPossiblePicks prob data off len)

/-- The deterministic gather branch of `GetSamplingPickFn`
(`num_samples == -1 || (!replace && len == num_picks)`): walk the row and
collect the positions with positive probability, in order. -/
def samplingGather (prob : List Rat) (data : Option (List Nat))
    (off len : Nat) : List Nat :=
  ((List.range len).filter
    (fun j => 0 < prob.getD (cooEid data (off + j)) 0)).map (fun j => off + j)

/-- Possible results of `GetSamplingPickFn` on one row. The deterministic
branch gathers the positive-probability positions and `CHECK_EQ`s their
count against `num_picks` (a fatal error on mismatch). The other branch is
modelled from the spec: `RandomEngine::Choice` (`dgl/random.h`, not among
the sources; §4.2) draws `num_picks` positions of the row weighted by the
sliced probabilities, never choosing a zero-weight position and without
duplicates when sampling without replacement. -/
def SamplingPickOutcome (num_samples : Int) (prob : List Rat)
    (replace : Bool) (data : Option (List Nat)) (off len num_picks : Nat)
    (res : Except String (List Nat)) : Prop :=
  if num_samples = -1 ∨ (replace = false ∧ len = num_picks) then
    res = (if (samplingGather prob data off len).length = num_picks
      then Except.ok (samplingGather prob data off len)
      else Except.error "Check failed: i == num_picks")
  else
    ∃ out : List Nat, res = Except.ok out ∧ out.length = num_picks ∧
      (∀ p ∈ out, ∃ j, j < len ∧ p = off + j ∧
        0 < prob.getD (cooEid data (off + j)) 0) ∧
      (replace = false → out.Nodup)

/-- One row of `CSRRowWiseSampling`: the engine evaluates
`GetSamplingNumPicksFn` on the row extent and hands the count to
`GetSamplingPickFn`. -/
def CSRSamplingRowOutcome (mat : CSRMatrix) (num_samples : Int)
    (prob : List Rat) (replace : Bool) (r : Nat)
    (res : Except String (List Nat)) : Prop :=
  SamplingPickOutcome num_samples prob replace mat.data (csrRowOff mat r)
    (csrRowLen mat r)
    (GetSamplingNumPicksFn num_samples prob replace mat.data
      (csrRowOff mat r) (csrRowLen mat r)).toNat res

/-! ## Sparse matrix compaction (`sparse/matrix_ops.cc`, `CompactIndices` /
`CompactCOO`)

The torch collaborators are embedded by their contracts: `row.sort(-1)`
returns the ascending values together with a source-position permutation
(embedded with a stable structural sort; `CompactIndices`'s result depends
on the permutation only through `sort_row[rev_sort_idx[i]] = row[i]`, which
every valid sort permutation satisfies); `torch::_unique` returns the
ascending-sorted duplicate-free values (the current CPU/CUDA kernels always
sort) plus, via `return_inverse`, each input element's index in that sorted
unique array; `index_select` gathers, `flip(-1)` reverses. -/

/-- Order used to sort `(value, source position)` pairs: by value,
position-stable on ties. -/
def sortPairsRel (a b : Int × Nat) : Prop :=
  a.1 < b.1 ∨ (a.1 = b.1 ∧ a.2 ≤ b.2)

instance (a b : Int × Nat) : Decidable (sortPairsRel a b) := by
  unfold sortPairsRel; infer_instance

instance : IsTotal (Int × Nat) sortPairsRel :=
  ⟨by intro a b; unfold sortPairsRel; omega⟩

instance : IsTrans (Int × Nat) sortPairsRel :=
  ⟨by intro a b c hab hbc; unfold sortPairsRel at *; omega⟩

/-- `row.sort(-1)` embedded: the `(value, position)` pairs in ascending
order. -/
def torchSortPairs (row : List Int) : List (Int × Nat) :=
  ((List.range row.length).map (fun i => (row.getD i 0, i))).insertionSort
    sortPairsRel

/-- `sort_row`: the ascending values. -/
def sortRow (row : List Int) : List Int := (torchSortPairs row).map Prod.fst

/-- `sort_idx`: `row[sort_idx[p]] = sort_row[p]`. -/
def sortIdx (row : List Int) : List Nat := (torchSortPairs row).map Prod.snd

/-- `rev_sort_idx.index_put_({sort_idx}, arange(n))`: the inverse
permutation, `rev_sort_idx[sort_idx[p]] = p`. -/
def revSortIdx (row : List Int) : List Nat :=
  (List.range row.length).map (fun v => (sortIdx row).indexOf v)

/-- Remove consecutive duplicates (on a sorted list: the sorted unique
values, as produced by `torch::_unique` and by
`cub::DeviceRunLengthEncode::Encode`). -/
def dedupSorted : List Int → List Int
  | [] => []
  | [a] => [a]
  | a :: b :: t =>
      if a = b then dedupSorted (b :: t) else a :: dedupSorted (b :: t)

/-- Sorted unique values of a list (`torch::_unique` values output). -/
def sortedUnique (l : List Int) : List Int :=
  dedupSorted (l.insertionSort (· ≤ ·))

/-- The argument of `torch::_unique`: the optional leading ids concatenated
with the sorted row. -/
def compactCat (row : List Int) (leading : Option (List Int)) : List Int :=
  match leading with
  | some ld => ld ++ sortRow row
  | none => sortRow row

/-- `arange(U-1, -1, -1)[uniq_idx[n_leading : n_leading + n]]`: the middle
gather of `CompactIndices`, indexed by sorted-row position. -/
def compactB (row : List Int) (leading : Option (List Int)) : List Int :=
  let n_leading := match leading with | some ld => ld.length | none => 0
  let cat := compactCat row leading
  let uniqued := sortedUnique cat
  let uniq_idx : List Nat := cat.map (fun x => uniqued.indexOf x)
  let U := uniqued.length
  let A : List Int := (List.range U).map
    (fun i : Nat => ((U : Int) - 1 - (i : Int)))
  ((uniq_idx.drop n_leading).take row.length).map (fun t => A.getD t 0)

/-- `CompactIndices`: sort the row, concatenate the optional leading ids
with the sorted row, take sorted-unique values with inverse indices
(`uniq_idx`), and build
`new_row = arange(U-1, -1, -1)[uniq_idx[n_leading : n_leading + n]][rev_sort_idx]`.
Returns `(new_row, uniqued)`. -/
def CompactIndices (row : List Int) (leading : Option (List Int)) :
    List Int × List Int :=
  ((revSortIdx row).map (fun t => (compactB row leading).getD t 0),
    sortedUnique (compactCat row leading))

/-- The reverse mapping returned by `CompactCOO` / `CompactCSC`:
`ret_idx = uniqued.flip(-1)` — compacted index `c` stands for original id
`ret_idx[c]`. -/
def CompactCOORetIdx (row : List Int) (leading : Option (List Int)) :
    List Int :=
  (CompactIndices row leading).2.reverse

/-! ## graphbolt `UniqueAndCompact`
(`cuda/unique_and_compact_impl.cu`)

The cub/thrust primitives are embedded by their documented behavior on
sorted ranges: `Sort` produces the ascending values (and, for the indexed
variant, each sorted element's original position — the same
value-with-position sort as `torchSortPairs`); `thrust::binary_search` on
a sorted range decides membership; `thrust::lower_bound` on a sorted range
returns the first position whose element is `≥` the query (the count of
elements `<` it); `cub::DeviceRunLengthEncode::Encode` on a sorted range
yields the duplicate-free values (`dedupSorted`). The source reads
`sorted_order[loc]` even when `loc == size` (one past the end); the
embedding treats that out-of-bounds read as a failed equality, which is
the check's intent. -/

/-- Plain ascending sort (`Sort<false>` by value only). -/
def sortInts (l : List Int) : List Int := l.insertionSort (· ≤ ·)

/-- `thrust::lower_bound` on a sorted range: the number of elements
strictly below the query. -/
def lowerBound (l : List Int) (x : Int) : Nat :=
  l.countP (fun y => decide (y < x))

/-- `thrust::binary_search` on a sorted range: membership. -/
def binContains (l : List Int) (x : Int) : Bool := decide (x ∈ l)

/-- The "check if unique_dst_ids includes all dst_ids" step: every dst id,
looked up by `lower_bound` in the sorted order, is found there. -/
def uacCheck (sorted_order dst : List Int) : Bool :=
  dst.all (fun d => sorted_order[lowerBound sorted_order d]? == some d)

/-- `UniqueAndCompact(src_ids, dst_ids, unique_dst_ids)`: mark the src ids
that are dst ids, filter them out (`only_src`), sort-unique the rest,
concatenate `unique_dst_ids` with the unique residual src ids
(`real_order`), sort it with positions (`sorted_order`, `new_ids`), check
all dst ids are present (else `std::out_of_range`), and gather the
compacted ids of `src_ids` and `dst_ids` through `lower_bound` +
`new_ids`. -/
def UniqueAndCompact (src dst udst : List Int) :
    Except String (List Int × List Int × List Int) :=
  let sorted_udst := sortInts udst
  let only_src := src.filter (fun s => !(binContains sorted_udst s))
  let unique_only_src := sortedUnique only_src
  let real_order := udst ++ unique_only_src
  let sorted_order := sortRow real_order
  let new_ids := sortIdx real_order
  if uacCheck sorted_order dst then
    Except.ok (real_order,
      src.map (fun s =>
        ((new_ids.getD (lowerBound sorted_order s) 0 : Nat) : Int)),
      dst.map (fun d =>
        ((new_ids.getD (lowerBound sorted_order d) 0 : Nat) : Int)))
  else Except.error "Some ids not found."

/-! ## CPU id hash map (`array/cpu/cpu_id_hash_map.h`)

Modelled from the spec: only the class declaration (`cpu_id_hash_map.h`)
is among the sources; the implementation of `Init` / `map` /
`fillInIds` / `insert_cas` is modelled from §4.1: open addressing with
double hashing (initial hash `id * factor mod capacity`; on collision,
advance by a second hash-derived stride, odd so that the probe sequence
cycles through every slot of the power-of-two capacity), the sentinel key
`kEmptyKey = -1` (all-bits-set, from the header), capacity a power of two
exceeding the input cardinality, and a per-id valid flag plus prefix-scan
compaction, whose visible result is modelled by its sequential
linearization: ids are inserted in order, first occurrences claim a fresh
slot and receive the next dense index. -/

/-- The sentinel: `static_cast<IdType>(-1)`. -/
def kEmptyKey : Int := -1

/-- State of a built `CpuIdHashMap`: capacity, slot array of
`(key, value)` pairs, and the unique ids in insertion order. -/
structure HashMapSt where
  cap : Nat
  table : List (Int × Int)
  uniques : List Int
deriving DecidableEq

/-- Initial hash: `id * factor mod capacity`. -/
def hmHash (c : Nat) (id : Int) : Nat := (id.natAbs * 2654435761) % c

/-- Collision stride: hash-derived and odd, so that with a power-of-two
capacity the probe sequence visits every slot. -/
def hmStride (c : Nat) (id : Int) : Nat := 2 * (id.natAbs % c) + 1

/-- The `j`-th probe position of `id`. -/
def probeAt (c : Nat) (id : Int) (j : Nat) : Nat :=
  (hmHash c id + j * hmStride c id) % c

/-- Key of slot `p`. -/
def slotKey (t : List (Int × Int)) (p : Nat) : Int :=
  (t.getD p (kEmptyKey, kEmptyKey)).1

/-- Value of slot `p`. -/
def slotVal (t : List (Int × Int)) (p : Nat) : Int :=
  (t.getD p (kEmptyKey, kEmptyKey)).2

/-- `insert_cas` / `attempt_insert_at` probe loop: find the first probe
position holding `id` (a duplicate — `false` flag) or the sentinel (a
fresh claim — `true` flag). -/
def hmInsertLoop (t : List (Int × Int)) (c : Nat) (id : Int) :
    Nat → Nat → Option (Nat × Bool)
  | 0, _ => none
  | Nat.succ fuel, j =>
      let p := probeAt c id j
      if slotKey t p = id then some (p, false)
      else if slotKey t p = kEmptyKey then some (p, true)
      else hmInsertLoop t c id fuel (j + 1)

/-- Insert one id: a fresh claim writes `(id, next dense index)` into the
claimed slot and appends `id` to the unique list; a duplicate changes
nothing. -/
def hmInsert (st : HashMapSt) (id : Int) : HashMapSt :=
  match hmInsertLoop st.table st.cap id st.cap 0 with
  | some (p, true) =>
      { st with table := st.table.set p (id, st.uniques.length),
                uniques := st.uniques ++ [id] }
  | _ => st

/-- `Init(ids, unique_ids)`: build the map over all ids with capacity
`2 ^ m`. -/
def CpuIdHashMapInit (m : Nat) (ids : List Int) : HashMapSt :=
  ids.foldl hmInsert
    { cap := 2 ^ m, table := List.replicate (2 ^ m) (kEmptyKey, kEmptyKey),
      uniques := [] }

/-- `map(id, default_val)` probe loop: the sentinel ends the search with
`default_val`; the key itself yields the stored value. -/
def hmMapLoop (t : List (Int × Int)) (c : Nat) (id default_val : Int) :
    Nat → Nat → Int
  | 0, _ => default_val
  | Nat.succ fuel, j =>
      let p := probeAt c id j
      if slotKey t p = kEmptyKey then default_val
      else if slotKey t p = id then slotVal t p
      else hmMapLoop t c id default_val fuel (j + 1)

/-- `map(id, default_val)`: single-id lookup (a total function — it never
throws). -/
def CpuIdHashMapSingle (st : HashMapSt) (id default_val : Int) : Int :=
  hmMapLoop st.table st.cap id default_val st.cap 0

/-- `hmHit t c id j`: probe position `j` stops the search (key is `id` or
the sentinel). -/
def hmHit (t : List (Int × Int)) (c : Nat) (id : Int) (j : Nat) : Prop :=
  slotKey t (probeAt c id j) = id ∨ slotKey t (probeAt c id j) = kEmptyKey

instance (t : List (Int × Int)) (c : Nat) (id : Int) (j : Nat) :
    Decidable (hmHit t c id j) := by
  unfold hmHit; infer_instance

/-- Invariant of a built table: correct length; every non-sentinel slot
holds a unique id with its dense index as value; every unique id is
reachable along its own probe sequence with no sentinel and no earlier
occurrence before it; non-sentinel keys are pairwise distinct; the unique
list is duplicate-free and never holds the sentinel. -/
def HashInv (c : Nat) (t : List (Int × Int)) (uniques : List Int) : Prop :=
  t.length = c ∧
  (∀ p, p < c → slotKey t p = kEmptyKey ∨
    (slotKey t p ∈ uniques ∧
      slotVal t p = uniques.indexOf (slotKey t p))) ∧
  (∀ x ∈ uniques, ∃ j, j < c ∧ slotKey t (probeAt c x j) = x ∧
    ∀ j2, j2 < j → slotKey t (probeAt c x j2) ≠ kEmptyKey ∧
      slotKey t (probeAt c x j2) ≠ x) ∧
  (∀ p1 p2, p1 < c → p2 < c → p1 ≠ p2 → slotKey t p1 ≠ kEmptyKey →
    slotKey t p1 ≠ slotKey t p2) ∧
  uniques.Nodup ∧
  kEmptyKey ∉ uniques

end DGL

namespace DGL

/-! ## Supporting lemmas -/

lemma calcBcastStep_ok (lts rts : List Int) (j : Nat)
    (h : ¬ bcastBad lts rts j) (st : BcastLoopSt) :
    ∃ st1, calcBcastStep lts rts st j = Except.ok st1 ∧
      st1.real_out_shape =
        st.real_out_shape ++ [max (bcastDim lts j) (bcastDim rts j)] := by
  simp only [calcBcastStep]
  by_cases hd : bcastDim lts j ≠ bcastDim rts j
  · have hb : ¬ (bcastDim lts j ≠ 1 ∧ bcastDim rts j ≠ 1) := fun hc =>
      h ⟨hd, hc⟩
    rw [if_pos hd, if_neg hb]
    by_cases ha : st.accum ≠ 0
    · rw [if_pos ha]
      exact ⟨_, rfl, by simp⟩
    · rw [if_neg ha]
      exact ⟨_, rfl, by simp⟩
  · rw [if_neg hd]
    exact ⟨_, rfl, by simp⟩

lemma calcBcast_foldlM_ok (lts rts : List Int) (js : List Nat)
    (hok : ∀ j ∈ js, ¬ bcastBad lts rts j) :
    ∀ st : BcastLoopSt,
    ∃ st2, js.foldlM (calcBcastStep lts rts) st = Except.ok st2 ∧
      st2.real_out_shape = st.real_out_shape ++
        js.map (fun j => max (bcastDim lts j) (bcastDim rts j)) := by
  induction js with
  | nil => intro st; exact ⟨st, rfl, by simp⟩
  | cons j js ih =>
      intro st
      obtain ⟨st1, hstep, hro⟩ := calcBcastStep_ok lts rts j
        (hok j (List.mem_cons_self j js)) st
      obtain ⟨st2, hrest, hro2⟩ := ih
        (fun x hx => hok x (List.mem_cons_of_mem j hx)) st1
      refine ⟨st2, ?_, ?_⟩
      · rw [List.foldlM_cons, hstep]
        simpa using hrest
      · rw [hro2, hro]; simp

lemma calcBcast_foldlM_err (lts rts : List Int) (js : List Nat)
    (hbad : ∃ j ∈ js, bcastBad lts rts j) :
    ∀ st : BcastLoopSt,
    ∃ e, js.foldlM (calcBcastStep lts rts) st = Except.error e := by
  induction js with
  | nil => simp at hbad
  | cons j js ih =>
      intro st
      by_cases hj : bcastBad lts rts j
      · refine ⟨"Invalid broadcasting between feature shapes", ?_⟩
        rw [List.foldlM_cons]
        have : calcBcastStep lts rts st j =
            Except.error "Invalid broadcasting between feature shapes" := by
          simp only [calcBcastStep]
          rw [if_pos hj.1, if_pos hj.2]
        rw [this]
        rfl
      · obtain ⟨st1, hstep, _⟩ := calcBcastStep_ok lts rts j hj st
        have hbad2 : ∃ x ∈ js, bcastBad lts rts x := by
          obtain ⟨x, hx, hbx⟩ := hbad
          rcases List.mem_cons.mp hx with h1 | h2
          · exact absurd (h1 ▸ hbx) hj
          · exact ⟨x, h2, hbx⟩
        obtain ⟨e, he⟩ := ih hbad2 st1
        refine ⟨e, ?_⟩
        rw [List.foldlM_cons, hstep]
        simpa using he

lemma cooRemoveIf_foldl (coo : COOMatrix) (values : List Int) (criteria : Int)
    (l : List Nat) :
    ∀ acc : List Int × List Int × List Nat,
    l.foldl (cooRemoveIfStep coo values criteria) acc =
      (acc.1 ++ (l.filter
          (fun i => values.getD (cooEid coo.data i) 0 ≠ criteria)).map
          (fun i => coo.row.getD i 0),
       acc.2.1 ++ (l.filter
          (fun i => values.getD (cooEid coo.data i) 0 ≠ criteria)).map
          (fun i => coo.col.getD i 0),
       acc.2.2 ++ (l.filter
          (fun i => values.getD (cooEid coo.data i) 0 ≠ criteria)).map
          (cooEid coo.data)) := by
  induction l with
  | nil => intro acc; simp
  | cons i l ih =>
      intro acc
      rw [List.foldl_cons, ih]
      unfold cooRemoveIfStep
      by_cases h : values.getD (cooEid coo.data i) 0 = criteria
      · rw [if_neg (not_not_intro h), List.filter_cons]
        simp only [List.getD_eq_getElem?_getD] at h
        simp [h]
      · rw [if_pos h, List.filter_cons]
        simp only [List.getD_eq_getElem?_getD] at h
        simp [h]

lemma foldl_add_sum (f : Nat → Int) (l : List Nat) :
    ∀ acc : Int, l.foldl (fun a i => a + f i) acc = acc + (l.map f).sum := by
  induction l with
  | nil => intro acc; simp
  | cons i l ih => intro acc; rw [List.foldl_cons, ih]; simp; ring

lemma length_rowWisePickRow (num_picks_fn : Nat → Nat → Nat → Int)
    (pick_fn : Nat → Nat → Nat → Nat → Nat → Nat) (off len r : Nat) :
    (rowWisePickRow num_picks_fn pick_fn off len r).length =
      (num_picks_fn r off len).toNat := by
  simp [rowWisePickRow]

lemma pairwise_perm_eq {α : Type} {R : α → α → Prop} :
    ∀ {l1 l2 : List α}, l1.Perm l2 → List.Pairwise R l1 →
    List.Pairwise R l2 →
    (∀ a ∈ l1, ∀ b ∈ l1, R a b → R b a → a = b) → l1 = l2 := by
  intro l1
  induction l1 with
  | nil => intro l2 hp _ _ _; exact (hp.nil_eq).symm ▸ rfl
  | cons a t1 ih =>
      intro l2 hp hp1 hp2 hanti
      cases l2 with
      | nil => exact absurd hp.symm.nil_eq (by simp)
      | cons b t2 =>
          by_cases hab : a = b
          · subst hab
            have ht : t1.Perm t2 := hp.cons_inv
            have := ih ht hp1.tail hp2.tail
              (fun x hx y hy => hanti x (List.mem_cons_of_mem a hx) y
                (List.mem_cons_of_mem a hy))
            rw [this]
          · exfalso
            have ha2 : a ∈ t2 := by
              have : a ∈ b :: t2 := hp.mem_iff.mp (List.mem_cons_self a t1)
              exact (List.mem_cons.mp this).resolve_left hab
            have hb1 : b ∈ t1 := by
              have : b ∈ a :: t1 := hp.mem_iff.mpr (List.mem_cons_self b t2)
              exact (List.mem_cons.mp this).resolve_left
                (fun h => hab h.symm)
            have hRab : R a b := (List.pairwise_cons.mp hp1).1 b hb1
            have hRba : R b a := (List.pairwise_cons.mp hp2).1 a ha2
            exact hab (hanti a (List.mem_cons_self a t1) b
              (List.mem_cons_of_mem a hb1) hRab hRba)

lemma samplingGather_length (prob : List Rat) (data : Option (List Nat))
    (off len : Nat) :
    (samplingGather prob data off len).length =
      numPossiblePicks prob data off len := by
  simp [samplingGather, numPossiblePicks]

lemma numPossiblePicks_le_len (prob : List Rat) (data : Option (List Nat))
    (off len : Nat) : numPossiblePicks prob data off len ≤ len := by
  have := List.length_filter_le
    (fun j => decide (0 < prob.getD (cooEid data (off + j)) 0))
    (List.range len)
  simpa [numPossiblePicks] using this

lemma sampling_pick_ok2 (ns : Int)
    (h1 : ¬(ns = -1 ∨ (false = false ∧ (4 : Nat) = 1))) :
    SamplingPickOutcome ns [0, 0, 5, 0] false none 0 4 1 (Except.ok [2]) := by
  unfold SamplingPickOutcome
  rw [if_neg h1]
  refine ⟨[2], rfl, rfl, ?_, fun _ => by decide⟩
  intro p hp
  have hp2 : p = 2 := by simpa using hp
  subst hp2
  exact ⟨2, by decide, rfl, by decide⟩

lemma range_map_getD (l : List Int) (d : Int) :
    (List.range l.length).map (fun i => l.getD i d) = l := by
  refine List.ext_getElem (by simp) ?_
  intro n h1 h2
  simp only [List.getElem_map, List.getElem_range]
  exact List.getD_eq_getElem l d h2

lemma torchSortPairs_length (row : List Int) :
    (torchSortPairs row).length = row.length := by
  unfold torchSortPairs
  rw [(List.perm_insertionSort sortPairsRel _).length_eq]
  simp

lemma sortRow_length (row : List Int) :
    (sortRow row).length = row.length := by
  simp [sortRow, torchSortPairs_length]

lemma sortIdx_length (row : List Int) :
    (sortIdx row).length = row.length := by
  simp [sortIdx, torchSortPairs_length]

lemma revSortIdx_length (row : List Int) :
    (revSortIdx row).length = row.length := by
  simp [revSortIdx]

lemma sortIdx_perm_range (row : List Int) :
    (sortIdx row).Perm (List.range row.length) := by
  have h := (List.perm_insertionSort sortPairsRel
    ((List.range row.length).map (fun i => (row.getD i 0, i)))).map Prod.snd
  unfold sortIdx torchSortPairs
  refine h.trans ?_
  rw [List.map_map]
  have h2 : (Prod.snd ∘ fun i => (row.getD i 0, i)) = fun i : Nat => i := rfl
  rw [h2, List.map_id']

lemma sortRow_perm (row : List Int) : (sortRow row).Perm row := by
  have h := (List.perm_insertionSort sortPairsRel
    ((List.range row.length).map (fun i => (row.getD i 0, i)))).map Prod.fst
  unfold sortRow torchSortPairs
  refine h.trans ?_
  rw [List.map_map]
  have : (Prod.fst ∘ fun i => (row.getD i 0, i)) = fun i => row.getD i 0 :=
    rfl
  rw [this, range_map_getD]

lemma sortRow_getD (row : List Int) (p : Nat) (hp : p < row.length) :
    (sortRow row).getD p 0 =
      row.getD ((sortIdx row).getD p 0) 0 := by
  have hlp : p < (torchSortPairs row).length := by
    rw [torchSortPairs_length]; exact hp
  have hmem : (torchSortPairs row)[p] ∈ torchSortPairs row :=
    List.getElem_mem hlp
  have hmem2 : (torchSortPairs row)[p] ∈
      (List.range row.length).map (fun i => (row.getD i 0, i)) :=
    (List.perm_insertionSort sortPairsRel _).mem_iff.mp hmem
  obtain ⟨j, _, hj⟩ := List.mem_map.mp hmem2
  have hsr : p < (sortRow row).length := by rw [sortRow_length]; exact hp
  have hsi : p < (sortIdx row).length := by rw [sortIdx_length]; exact hp
  have h1 : (sortRow row).getD p 0 = ((torchSortPairs row)[p]).1 := by
    rw [List.getD_eq_getElem _ _ hsr]
    unfold sortRow
    rw [List.getElem_map]
  have h2 : (sortIdx row).getD p 0 = ((torchSortPairs row)[p]).2 := by
    rw [List.getD_eq_getElem _ _ hsi]
    unfold sortIdx
    rw [List.getElem_map]
  rw [h1, h2, ← hj]

lemma revSortIdx_getD (row : List Int) (i : Nat) (hi : i < row.length) :
    (revSortIdx row).getD i 0 = (sortIdx row).indexOf i := by
  unfold revSortIdx
  rw [List.getD_eq_getElem _ _ (by simpa using hi)]
  simp

lemma sortRow_at_rev (row : List Int) (i : Nat) (hi : i < row.length) :
    (revSortIdx row).getD i 0 < row.length ∧
    (sortRow row).getD ((revSortIdx row).getD i 0) 0 = row.getD i 0 := by
  have hmem : i ∈ sortIdx row :=
    (sortIdx_perm_range row).mem_iff.mpr (List.mem_range.mpr hi)
  have hidx : (sortIdx row).indexOf i < (sortIdx row).length :=
    List.indexOf_lt_length.mpr hmem
  have hlen : (sortIdx row).length = row.length := sortIdx_length row
  have hp : (revSortIdx row).getD i 0 < row.length := by
    rw [revSortIdx_getD row i hi]
    exact hlen ▸ hidx
  refine ⟨hp, ?_⟩
  rw [revSortIdx_getD row i hi]
  have hgd : (sortIdx row).getD ((sortIdx row).indexOf i) 0 = i := by
    rw [List.getD_eq_getElem _ _ hidx]
    exact List.getElem_indexOf hidx
  rw [sortRow_getD row _ (hlen ▸ hidx), hgd]

lemma mem_dedupSorted : ∀ (l : List Int) (x : Int),
    x ∈ dedupSorted l ↔ x ∈ l
  | [], x => by simp [dedupSorted]
  | [a], x => by simp [dedupSorted]
  | a :: b :: t, x => by
      by_cases h : a = b
      · rw [dedupSorted, if_pos h, mem_dedupSorted (b :: t) x]
        subst h
        simp [List.mem_cons]
      · rw [dedupSorted, if_neg h]
        simp [List.mem_cons, mem_dedupSorted (b :: t) x]

lemma dedupSorted_cons : ∀ (a : Int) (t : List Int),
    ∃ t2, dedupSorted (a :: t) = a :: t2 ∧ ∀ x ∈ t2, x ∈ t
  | a, [] => ⟨[], rfl, by simp⟩
  | a, b :: t => by
      by_cases h : a = b
      · obtain ⟨t2, ht2, hsub⟩ := dedupSorted_cons b t
        refine ⟨t2, ?_, ?_⟩
        · rw [dedupSorted, if_pos h, ht2, h]
        · intro x hx
          exact List.mem_cons_of_mem b (hsub x hx)
      · refine ⟨dedupSorted (b :: t), by rw [dedupSorted, if_neg h], ?_⟩
        intro x hx
        exact (mem_dedupSorted (b :: t) x).mp hx

lemma dedupSorted_sorted : ∀ l : List Int,
    l.Sorted (· ≤ ·) → (dedupSorted l).Sorted (· < ·)
  | [], _ => by simp [dedupSorted]
  | [a], _ => by simp [dedupSorted]
  | a :: b :: t, h => by
      have hab : a ≤ b :=
        (List.sorted_cons.mp h).1 b (List.mem_cons_self b t)
      have htail : (b :: t).Sorted (· ≤ ·) := (List.sorted_cons.mp h).2
      by_cases hp : a = b
      · rw [dedupSorted, if_pos hp]
        exact dedupSorted_sorted (b :: t) htail
      · rw [dedupSorted, if_neg hp]
        refine List.sorted_cons.mpr ⟨?_, dedupSorted_sorted (b :: t) htail⟩
        intro x hx
        obtain ⟨t2, ht2, hsub⟩ := dedupSorted_cons b t
        rw [ht2] at hx
        rcases List.mem_cons.mp hx with rfl | hx2
        · exact lt_of_le_of_ne hab hp
        · have hbx : b ≤ x := (List.sorted_cons.mp htail).1 x (hsub x hx2)
          exact lt_of_lt_of_le (lt_of_le_of_ne hab hp) hbx

lemma sortedUnique_sorted (l : List Int) :
    (sortedUnique l).Sorted (· < ·) :=
  dedupSorted_sorted _ (List.sorted_insertionSort (· ≤ ·) l)

lemma mem_sortedUnique (l : List Int) (x : Int) :
    x ∈ sortedUnique l ↔ x ∈ l :=
  (mem_dedupSorted _ x).trans (List.perm_insertionSort (· ≤ ·) l).mem_iff

lemma arange_rev_getD (U k : Nat) (hk : k < U) :
    (((List.range U).map
      (fun i : Nat => ((U : Int) - 1 - (i : Int)))).getD k 0) =
      (U : Int) - 1 - k := by
  rw [List.getD_eq_getElem _ _
    (by rw [List.length_map, List.length_range]; exact hk)]
  rw [List.getElem_map, List.getElem_range]

lemma compactB_getD (row ld : List Int) (p : Nat) (hp : p < row.length) :
    (compactB row (some ld)).getD p 0 =
      ((sortedUnique (compactCat row (some ld))).length : Int) - 1 -
        ((sortedUnique (compactCat row (some ld))).indexOf
          ((sortRow row).getD p 0)) := by
  have hsr : p < (sortRow row).length := by rw [sortRow_length]; exact hp
  have hmem : (sortRow row).getD p 0 ∈
      sortedUnique (ld ++ sortRow row) := by
    rw [mem_sortedUnique]
    refine List.mem_append_right ld ?_
    rw [List.getD_eq_getElem _ _ hsr]
    exact List.getElem_mem hsr
  have hidx : List.indexOf ((sortRow row).getD p 0)
      (sortedUnique (ld ++ sortRow row)) <
      (sortedUnique (ld ++ sortRow row)).length :=
    List.indexOf_lt_length.mpr hmem
  unfold compactB
  simp only [compactCat]
  rw [List.map_append]
  have hdl : ld.length = (ld.map (fun x =>
      (sortedUnique (ld ++ sortRow row)).indexOf x)).length := by simp
  rw [hdl, List.drop_left]
  have htk : ((sortRow row).map (fun x =>
      (sortedUnique (ld ++ sortRow row)).indexOf x)).take row.length =
      (sortRow row).map (fun x =>
        (sortedUnique (ld ++ sortRow row)).indexOf x) := by
    have : row.length = ((sortRow row).map (fun x =>
        (sortedUnique (ld ++ sortRow row)).indexOf x)).length := by
      simp [sortRow_length]
    rw [this, List.take_length]
  rw [htk, List.map_map]
  rw [List.getD_eq_getElem _ _ (by simpa [sortRow_length] using hp)]
  rw [List.getElem_map]
  have hgp : (sortRow row)[p] = (sortRow row).getD p 0 :=
    (List.getD_eq_getElem _ _ hsr).symm
  show ((List.range _).map _).getD _ 0 = _
  rw [hgp, arange_rev_getD _ _ hidx]

lemma compactIndices_new_row_getD (row ld : List Int) (i : Nat)
    (hi : i < row.length) :
    (CompactIndices row (some ld)).1.getD i 0 =
      ((CompactIndices row (some ld)).2.length : Int) - 1 -
        ((CompactIndices row (some ld)).2.indexOf (row.getD i 0)) := by
  obtain ⟨hp, hval⟩ := sortRow_at_rev row i hi
  have hib : i < (revSortIdx row).length := by
    simpa [revSortIdx_length] using hi
  show ((revSortIdx row).map
    (fun t => (compactB row (some ld)).getD t 0)).getD i 0 = _
  rw [List.getD_eq_getElem _ _ (by simpa using hib)]
  rw [List.getElem_map]
  have hrv : (revSortIdx row)[i] = (revSortIdx row).getD i 0 :=
    (List.getD_eq_getElem _ _ hib).symm
  rw [hrv, compactB_getD row ld _ hp, hval]
  rfl

lemma compactIndices_indexOf_lt (row ld : List Int) (i : Nat)
    (hi : i < row.length) :
    (CompactIndices row (some ld)).2.indexOf (row.getD i 0) <
      (CompactIndices row (some ld)).2.length := by
  refine List.indexOf_lt_length.mpr ?_
  show row.getD i 0 ∈ sortedUnique (compactCat row (some ld))
  rw [mem_sortedUnique]
  show _ ∈ ld ++ sortRow row
  refine List.mem_append_right ld ?_
  rw [(sortRow_perm row).mem_iff]
  rw [List.getD_eq_getElem _ _ hi]
  exact List.getElem_mem hi

lemma sortRow_sorted (l : List Int) : (sortRow l).Sorted (· ≤ ·) := by
  have h := List.sorted_insertionSort sortPairsRel
    ((List.range l.length).map (fun i => (l.getD i 0, i)))
  unfold sortRow torchSortPairs
  refine List.Pairwise.map Prod.fst ?_ h
  intro a b hab
  unfold sortPairsRel at hab
  rcases hab with h1 | ⟨h1, _⟩
  · exact le_of_lt h1
  · exact le_of_eq h1

lemma sorted_lowerBound_getElem (l : List Int) (hs : l.Sorted (· ≤ ·))
    (x : Int) : l[lowerBound l x]? = some x ↔ x ∈ l := by
  induction l with
  | nil => simp [lowerBound]
  | cons a t ih =>
      have hst : t.Sorted (· ≤ ·) := (List.sorted_cons.mp hs).2
      by_cases hax : a < x
      · have hlb : lowerBound (a :: t) x = lowerBound t x + 1 := by
          simp [lowerBound, List.countP_cons, hax]
        rw [hlb]
        simp only [List.getElem?_cons_succ]
        rw [ih hst]
        constructor
        · exact fun h => List.mem_cons_of_mem a h
        · intro h
          rcases List.mem_cons.mp h with rfl | h2
          · exact absurd hax (lt_irrefl x)
          · exact h2
      · have hcount : lowerBound (a :: t) x = 0 := by
          have h0 : t.countP (fun y => decide (y < x)) = 0 := by
            refine List.countP_eq_zero.mpr ?_
            intro y hy
            have hay : a ≤ y := (List.sorted_cons.mp hs).1 y hy
            simp only [decide_eq_true_eq]
            intro hyx
            exact hax (lt_of_le_of_lt hay hyx)
          simp [lowerBound, List.countP_cons, hax, h0]
        rw [hcount]
        simp only [List.getElem?_cons_zero]
        constructor
        · intro h
          have hax2 : a = x := by simpa using h
          exact hax2 ▸ List.mem_cons_self a t
        · intro h
          rcases List.mem_cons.mp h with rfl | h2
          · rfl
          · have h1 : a ≤ x := (List.sorted_cons.mp hs).1 x h2
            have h2b : x ≤ a := le_of_not_lt hax
            rw [le_antisymm h1 h2b]

lemma uacCheck_iff (l : List Int) (hs : l.Sorted (· ≤ ·))
    (dst : List Int) :
    uacCheck l dst = true ↔ ∀ d ∈ dst, d ∈ l := by
  unfold uacCheck
  rw [List.all_eq_true]
  constructor
  · intro h d hd
    exact (sorted_lowerBound_getElem l hs d).mp (by simpa using h d hd)
  · intro h d hd
    simpa using (sorted_lowerBound_getElem l hs d).mpr (h d hd)

lemma mem_uac_real_order (src udst : List Int) (d : Int) :
    (d ∈ udst ++ sortedUnique (src.filter
      (fun s => !(binContains (sortInts udst) s)))) ↔
      (d ∈ udst ∨ d ∈ src) := by
  rw [List.mem_append, mem_sortedUnique, List.mem_filter]
  constructor
  · rintro (h | ⟨h, _⟩)
    · exact Or.inl h
    · exact Or.inr h
  · rintro (h | h)
    · exact Or.inl h
    · by_cases hu : d ∈ udst
      · exact Or.inl hu
      · refine Or.inr ⟨h, ?_⟩
        simp only [binContains, sortInts, Bool.not_eq_eq_eq_not,
          Bool.not_true, decide_eq_false_iff_not]
        rw [(List.perm_insertionSort (· ≤ ·) udst).mem_iff]
        exact hu

lemma probeAt_lt (c : Nat) (hc : 0 < c) (id : Int) (j : Nat) :
    probeAt c id j < c :=
  Nat.mod_lt _ hc

lemma two_pow_pos (m : Nat) : 0 < 2 ^ m := Nat.pos_pow_of_pos m (by omega)

lemma hmStride_coprime (m : Nat) (id : Int) :
    Nat.gcd (2 ^ m) (hmStride (2 ^ m) id) = 1 := by
  have h2 : Nat.Coprime 2 (hmStride (2 ^ m) id) := by
    unfold Nat.Coprime
    rw [Nat.gcd_rec 2 (hmStride (2 ^ m) id)]
    have : hmStride (2 ^ m) id % 2 = 1 := by unfold hmStride; omega
    rw [this]
    rfl
  exact Nat.Coprime.pow_left m h2

lemma probeAt_injective (m : Nat) (id : Int) (j1 j2 : Nat)
    (h1 : j1 < 2 ^ m) (h2 : j2 < 2 ^ m)
    (heq : probeAt (2 ^ m) id j1 = probeAt (2 ^ m) id j2) : j1 = j2 := by
  unfold probeAt at heq
  have hmod : (hmHash (2 ^ m) id + j1 * hmStride (2 ^ m) id) ≡
      (hmHash (2 ^ m) id + j2 * hmStride (2 ^ m) id) [MOD 2 ^ m] := heq
  have hmul : j1 * hmStride (2 ^ m) id ≡ j2 * hmStride (2 ^ m) id
      [MOD 2 ^ m] :=
    (Nat.ModEq.refl (hmHash (2 ^ m) id)).add_left_cancel hmod
  have hj : j1 ≡ j2 [MOD 2 ^ m] :=
    Nat.ModEq.cancel_right_of_coprime (hmStride_coprime m id) hmul
  have := hj
  unfold Nat.ModEq at this
  rw [Nat.mod_eq_of_lt h1, Nat.mod_eq_of_lt h2] at this
  exact this

lemma probeAt_surjective (m : Nat) (id : Int) (p : Nat) (hp : p < 2 ^ m) :
    ∃ j, j < 2 ^ m ∧ probeAt (2 ^ m) id j = p := by
  have hinj : Set.InjOn (probeAt (2 ^ m) id)
      (Finset.range (2 ^ m) : Finset Nat) := by
    intro a ha b hb hab
    simp only [Finset.coe_range, Set.mem_Iio] at ha hb
    exact probeAt_injective m id a b ha hb hab
  have hsub : (Finset.range (2 ^ m)).image (probeAt (2 ^ m) id) ⊆
      Finset.range (2 ^ m) := by
    intro q hq
    obtain ⟨j, _, hj⟩ := Finset.mem_image.mp hq
    rw [Finset.mem_range, ← hj]
    exact probeAt_lt _ (two_pow_pos m) id j
  have hcard : (Finset.range (2 ^ m)).card ≤
      ((Finset.range (2 ^ m)).image (probeAt (2 ^ m) id)).card := by
    rw [Finset.card_image_of_injOn hinj]
  have heqs := Finset.eq_of_subset_of_card_le hsub hcard
  have hpmem : p ∈ (Finset.range (2 ^ m)).image (probeAt (2 ^ m) id) := by
    rw [heqs]
    exact Finset.mem_range.mpr hp
  obtain ⟨j, hjr, hj⟩ := Finset.mem_image.mp hpmem
  exact ⟨j, Finset.mem_range.mp hjr, hj⟩

lemma exists_empty_slot (c : Nat) (t : List (Int × Int))
    (uniques : List Int) (hmem : ∀ p, p < c → slotKey t p = kEmptyKey ∨
      slotKey t p ∈ uniques)
    (hdist : ∀ p1 p2, p1 < c → p2 < c → p1 ≠ p2 →
      slotKey t p1 ≠ kEmptyKey → slotKey t p1 ≠ slotKey t p2)
    (hlen : uniques.length < c) :
    ∃ p, p < c ∧ slotKey t p = kEmptyKey := by
  by_contra hno
  push_neg at hno
  have hfull : ∀ p, p < c → slotKey t p ∈ uniques := by
    intro p hp
    rcases hmem p hp with h | h
    · exact absurd h (hno p hp)
    · exact h
  have hinj : Set.InjOn (slotKey t) (Finset.range c : Finset Nat) := by
    intro a ha b hb hab
    simp only [Finset.coe_range, Set.mem_Iio] at ha hb
    by_contra hne
    exact hdist a b ha hb hne (hno a ha) hab
  have hsub : (Finset.range c).image (slotKey t) ⊆ uniques.toFinset := by
    intro q hq
    obtain ⟨p, hpr, hp⟩ := Finset.mem_image.mp hq
    rw [List.mem_toFinset, ← hp]
    exact hfull p (Finset.mem_range.mp hpr)
  have hcard := Finset.card_le_card hsub
  rw [Finset.card_image_of_injOn hinj, Finset.card_range] at hcard
  have := List.toFinset_card_le uniques
  omega

lemma hmInsertLoop_found (t : List (Int × Int)) (c : Nat) (id : Int) :
    ∀ (fuel j k : Nat), j ≤ k → k < j + fuel → hmHit t c id k →
    (∀ k2, j ≤ k2 → k2 < k → ¬ hmHit t c id k2) →
    hmInsertLoop t c id fuel j = some (probeAt c id k,
      if slotKey t (probeAt c id k) = id then false else true)
  | 0, j, k, hjk, hk, _, _ => by omega
  | Nat.succ fuel, j, k, hjk, hk, hhit, hmin => by
      by_cases hj : j = k
      · subst hj
        rw [hmInsertLoop]
        rcases hhit with h | h
        · rw [if_pos h, if_pos h]
        · by_cases h2 : slotKey t (probeAt c id j) = id
          · rw [if_pos h2, if_pos h2]
          · rw [if_neg h2, if_pos h, if_neg h2]
      · have hlt : j < k := lt_of_le_of_ne hjk hj
        have hnj : ¬ hmHit t c id j := hmin j (le_refl j) hlt
        rw [hmInsertLoop]
        have hk1 : ¬ slotKey t (probeAt c id j) = id := fun h =>
          hnj (Or.inl h)
        have hk2 : ¬ slotKey t (probeAt c id j) = kEmptyKey := fun h =>
          hnj (Or.inr h)
        rw [if_neg hk1, if_neg hk2]
        exact hmInsertLoop_found t c id fuel (j + 1) k hlt (by omega) hhit
          (fun k2 h1 h2 => hmin k2 (by omega) h2)

lemma hmMapLoop_found (t : List (Int × Int)) (c : Nat) (id d : Int) :
    ∀ (fuel j k : Nat), j ≤ k → k < j + fuel → hmHit t c id k →
    (∀ k2, j ≤ k2 → k2 < k → ¬ hmHit t c id k2) →
    hmMapLoop t c id d fuel j =
      (if slotKey t (probeAt c id k) = kEmptyKey then d
       else slotVal t (probeAt c id k))
  | 0, j, k, hjk, hk, _, _ => by omega
  | Nat.succ fuel, j, k, hjk, hk, hhit, hmin => by
      by_cases hj : j = k
      · subst hj
        rw [hmMapLoop]
        by_cases h : slotKey t (probeAt c id j) = kEmptyKey
        · rw [if_pos h, if_pos h]
        · rcases hhit with h2 | h2
          · rw [if_neg h, if_pos h2, if_neg h]
          · exact absurd h2 h
      · have hlt : j < k := lt_of_le_of_ne hjk hj
        have hnj : ¬ hmHit t c id j := hmin j (le_refl j) hlt
        rw [hmMapLoop]
        have hk1 : ¬ slotKey t (probeAt c id j) = id := fun h =>
          hnj (Or.inl h)
        have hk2 : ¬ slotKey t (probeAt c id j) = kEmptyKey := fun h =>
          hnj (Or.inr h)
        rw [if_neg hk2, if_neg hk1]
        exact hmMapLoop_found t c id d fuel (j + 1) k hlt (by omega) hhit
          (fun k2 h1 h2 => hmin k2 (by omega) h2)

lemma hmMapLoop_absent (t : List (Int × Int)) (c : Nat) (id d : Int)
    (habs : ∀ k, slotKey t (probeAt c id k) ≠ id ∨
      slotKey t (probeAt c id k) = kEmptyKey) :
    ∀ (fuel j : Nat), hmMapLoop t c id d fuel j = d
  | 0, j => rfl
  | Nat.succ fuel, j => by
      rw [hmMapLoop]
      by_cases h : slotKey t (probeAt c id j) = kEmptyKey
      · rw [if_pos h]
      · rcases habs j with h2 | h2
        · rw [if_neg h, if_neg h2]
          exact hmMapLoop_absent t c id d habs fuel (j + 1)
        · exact absurd h2 h

lemma indexOf_append_new (l : List Int) (x : Int) (hx : x ∉ l) :
    (l ++ [x]).indexOf x = l.length := by
  induction l with
  | nil => simp
  | cons a t ih =>
      have hxa : x ≠ a := by intro h; exact hx (h ▸ List.mem_cons_self a t)
      have hxt : x ∉ t := fun h => hx (List.mem_cons_of_mem a h)
      simp only [List.cons_append, List.indexOf_cons, List.length_cons]
      have hba : (a == x) = false := by
        simp [beq_iff_eq]
        exact fun h => hxa h.symm
      rw [hba]
      simp [ih hxt]

lemma slotKey_set_self (t : List (Int × Int)) (p : Nat) (v : Int × Int)
    (hp : p < t.length) : slotKey (t.set p v) p = v.1 := by
  unfold slotKey
  rw [List.getD_eq_getElem _ _ (by rw [List.length_set]; exact hp)]
  rw [List.getElem_set_self]

lemma slotVal_set_self (t : List (Int × Int)) (p : Nat) (v : Int × Int)
    (hp : p < t.length) : slotVal (t.set p v) p = v.2 := by
  unfold slotVal
  rw [List.getD_eq_getElem _ _ (by rw [List.length_set]; exact hp)]
  rw [List.getElem_set_self]

lemma slotKey_set_ne (t : List (Int × Int)) (p q : Nat) (v : Int × Int)
    (hq : q ≠ p) : slotKey (t.set p v) q = slotKey t q := by
  unfold slotKey
  by_cases h : q < t.length
  · rw [List.getD_eq_getElem _ _ (by rw [List.length_set]; exact h),
      List.getD_eq_getElem _ _ h, List.getElem_set_ne (Ne.symm hq)]
  · rw [List.getD_eq_default _ _ (by rw [List.length_set]; omega),
      List.getD_eq_default _ _ (by omega)]

lemma slotVal_set_ne (t : List (Int × Int)) (p q : Nat) (v : Int × Int)
    (hq : q ≠ p) : slotVal (t.set p v) q = slotVal t q := by
  unfold slotVal
  by_cases h : q < t.length
  · rw [List.getD_eq_getElem _ _ (by rw [List.length_set]; exact h),
      List.getD_eq_getElem _ _ h, List.getElem_set_ne (Ne.symm hq)]
  · rw [List.getD_eq_default _ _ (by rw [List.length_set]; omega),
      List.getD_eq_default _ _ (by omega)]

lemma hmInsert_inv (m : Nat) (t : List (Int × Int)) (u : List Int)
    (id : Int) (hI : HashInv (2 ^ m) t u) (hlen : u.length < 2 ^ m)
    (hid : id ≠ kEmptyKey) :
    ∃ t2 u2, hmInsert ⟨2 ^ m, t, u⟩ id = ⟨2 ^ m, t2, u2⟩ ∧
      HashInv (2 ^ m) t2 u2 ∧ (∀ x, x ∈ u2 ↔ (x ∈ u ∨ x = id)) ∧
      u2.length ≤ u.length + 1 := by
  obtain ⟨hlt, hkeys, hreach, hdist, hnd, hnemp⟩ := hI
  by_cases hmem : id ∈ u
  · obtain ⟨j, hj, hkeyj, hbef⟩ := hreach id hmem
    have hrun : hmInsertLoop t (2 ^ m) id (2 ^ m) 0 =
        some (probeAt (2 ^ m) id j, false) := by
      have h := hmInsertLoop_found t (2 ^ m) id (2 ^ m) 0 j
        (Nat.zero_le j) (by omega) (Or.inl hkeyj)
        (fun k2 _ h2 hh => by
          rcases hh with hh | hh
          · exact (hbef k2 h2).2 hh
          · exact (hbef k2 h2).1 hh)
      rw [if_pos hkeyj] at h
      exact h
    refine ⟨t, u, ?_, ⟨hlt, hkeys, hreach, hdist, hnd, hnemp⟩, ?_,
      by omega⟩
    · unfold hmInsert
      simp only [hrun]
    · intro x
      constructor
      · exact Or.inl
      · rintro (h | rfl)
        · exact h
        · exact hmem
  · have hkeys2 : ∀ p, p < 2 ^ m →
        slotKey t p = kEmptyKey ∨ slotKey t p ∈ u :=
      fun p hp => (hkeys p hp).imp (fun h => h) (fun h => h.1)
    obtain ⟨p0, hp0, hp0e⟩ := exists_empty_slot (2 ^ m) t u hkeys2 hdist
      hlen
    obtain ⟨k0, hk0, hk0p⟩ := probeAt_surjective m id p0 hp0
    have hex : ∃ k, hmHit t (2 ^ m) id k :=
      ⟨k0, Or.inr (by rw [hk0p]; exact hp0e)⟩
    have hhit := Nat.find_spec hex
    have hmin : ∀ k2, k2 < Nat.find hex → ¬ hmHit t (2 ^ m) id k2 :=
      fun k2 h2 => Nat.find_min hex h2
    have hklt : Nat.find hex < 2 ^ m :=
      lt_of_le_of_lt
        (Nat.find_min' hex (Or.inr (by rw [hk0p]; exact hp0e))) hk0
    have hplt : probeAt (2 ^ m) id (Nat.find hex) < 2 ^ m :=
      probeAt_lt _ (two_pow_pos m) id (Nat.find hex)
    have hplt2 : probeAt (2 ^ m) id (Nat.find hex) < t.length := by
      rw [hlt]; exact hplt
    have hpkey : slotKey t (probeAt (2 ^ m) id (Nat.find hex)) =
        kEmptyKey := by
      rcases hhit with hh | hh
      · exfalso
        rcases hkeys _ hplt with he | ⟨hm2, _⟩
        · exact hid (hh.symm.trans he)
        · exact hmem (hh ▸ hm2)
      · exact hh
    have hrun : hmInsertLoop t (2 ^ m) id (2 ^ m) 0 =
        some (probeAt (2 ^ m) id (Nat.find hex), true) := by
      have h := hmInsertLoop_found t (2 ^ m) id (2 ^ m) 0 (Nat.find hex)
        (Nat.zero_le _) (by omega) hhit (fun k2 _ h2 => hmin k2 h2)
      rw [if_neg (by rw [hpkey]; exact fun hh => hid hh.symm)] at h
      exact h
    have hks : slotKey (t.set (probeAt (2 ^ m) id (Nat.find hex))
        (id, (u.length : Int))) (probeAt (2 ^ m) id (Nat.find hex)) =
        id := slotKey_set_self t _ _ hplt2
    have hvs : slotVal (t.set (probeAt (2 ^ m) id (Nat.find hex))
        (id, (u.length : Int))) (probeAt (2 ^ m) id (Nat.find hex)) =
        (u.length : Int) := slotVal_set_self t _ _ hplt2
    have hko : ∀ q, q ≠ probeAt (2 ^ m) id (Nat.find hex) →
        slotKey (t.set (probeAt (2 ^ m) id (Nat.find hex))
          (id, (u.length : Int))) q = slotKey t q :=
      fun q hq => slotKey_set_ne t _ q _ hq
    have hvo : ∀ q, q ≠ probeAt (2 ^ m) id (Nat.find hex) →
        slotVal (t.set (probeAt (2 ^ m) id (Nat.find hex))
          (id, (u.length : Int))) q = slotVal t q :=
      fun q hq => slotVal_set_ne t _ q _ hq
    refine ⟨t.set (probeAt (2 ^ m) id (Nat.find hex))
      (id, (u.length : Int)), u ++ [id], ?_, ?_, ?_, by simp⟩
    · unfold hmInsert
      simp only [hrun]
    · refine ⟨by rw [List.length_set]; exact hlt, ?_, ?_, ?_, ?_, ?_⟩
      · intro q hq
        by_cases hqp : q = probeAt (2 ^ m) id (Nat.find hex)
        · subst hqp
          right
          refine ⟨by rw [hks]; simp, ?_⟩
          rw [hks, hvs, indexOf_append_new u id hmem]
        · rcases hkeys q hq with he | ⟨hm2, hv2⟩
          · left
            rw [hko q hqp]
            exact he
          · right
            rw [hko q hqp, hvo q hqp]
            refine ⟨List.mem_append_left _ hm2, ?_⟩
            rw [List.indexOf_append_of_mem hm2]
            exact hv2
      · intro x hx
        rcases List.mem_append.mp hx with hxu | hxid
        · obtain ⟨j, hj, hkeyx, hbef⟩ := hreach x hxu
          have hxne : x ≠ kEmptyKey := fun h => hnemp (h ▸ hxu)
          refine ⟨j, hj, ?_, ?_⟩
          · have hqp : probeAt (2 ^ m) x j ≠
                probeAt (2 ^ m) id (Nat.find hex) := by
              intro h
              rw [h] at hkeyx
              exact hxne (hkeyx.symm.trans hpkey)
            rw [hko _ hqp]
            exact hkeyx
          · intro j2 hj2
            have h2 := hbef j2 hj2
            have hqp2 : probeAt (2 ^ m) x j2 ≠
                probeAt (2 ^ m) id (Nat.find hex) := by
              intro h
              exact h2.1 (by rw [h]; exact hpkey)
            rw [hko _ hqp2]
            exact h2
        · have hxid2 : x = id := by simpa using hxid
          subst hxid2
          refine ⟨Nat.find hex, hklt, hks, ?_⟩
          intro j2 hj2
          have hnh := hmin j2 hj2
          have hqp2 : probeAt (2 ^ m) x j2 ≠
              probeAt (2 ^ m) x (Nat.find hex) := by
            intro h
            exact hnh (Or.inr (by rw [h]; exact hpkey))
          rw [hko _ hqp2]
          exact ⟨fun hh => hnh (Or.inr hh), fun hh => hnh (Or.inl hh)⟩
      · intro q1 q2 h1 h2 hne hk1
        by_cases hq1 : q1 = probeAt (2 ^ m) id (Nat.find hex)
        · subst hq1
          rw [hks, hko q2 (Ne.symm hne)]
          intro hh
          rcases hkeys q2 h2 with he | ⟨hm2, _⟩
          · exact hid (hh.trans he)
          · rw [← hh] at hm2
            exact hmem hm2
        · by_cases hq2 : q2 = probeAt (2 ^ m) id (Nat.find hex)
          · subst hq2
            rw [hko q1 hq1] at hk1 ⊢
            rw [hks]
            intro hh
            rcases hkeys q1 h1 with he | ⟨hm2, _⟩
            · exact hk1 he
            · rw [hh] at hm2
              exact hmem hm2
          · rw [hko q1 hq1, hko q2 hq2]
            rw [hko q1 hq1] at hk1
            exact hdist q1 q2 h1 h2 hne hk1
      · rw [List.nodup_append]
        refine ⟨hnd, List.nodup_singleton id, ?_⟩
        intro a ha hb
        have hab : a = id := by simpa using hb
        exact hmem (hab ▸ ha)
      · intro h
        rcases List.mem_append.mp h with h | h
        · exact hnemp h
        · have hke : kEmptyKey = id := by simpa using h
          exact hid hke.symm
    · intro x
      rw [List.mem_append]
      simp

lemma hashInv_init (m : Nat) : HashInv (2 ^ m)
    (List.replicate (2 ^ m) (kEmptyKey, kEmptyKey)) [] := by
  refine ⟨by simp, ?_, by simp, ?_, List.nodup_nil, by simp⟩
  · intro p hp
    left
    unfold slotKey
    rw [List.getD_eq_getElem _ _ (by simpa using hp)]
    simp
  · intro p1 p2 h1 h2 hne hk
    exfalso
    apply hk
    unfold slotKey
    rw [List.getD_eq_getElem _ _ (by simpa using h1)]
    simp

lemma hmInit_fold (m : Nat) : ∀ (ids : List Int) (t : List (Int × Int))
    (u : List Int), HashInv (2 ^ m) t u → (∀ x ∈ ids, x ≠ kEmptyKey) →
    u.length + ids.length ≤ 2 ^ m →
    ∃ t2 u2, ids.foldl hmInsert ⟨2 ^ m, t, u⟩ = ⟨2 ^ m, t2, u2⟩ ∧
      HashInv (2 ^ m) t2 u2 ∧ (∀ x, x ∈ u2 ↔ (x ∈ u ∨ x ∈ ids)) ∧
      u2.length ≤ u.length + ids.length := by
  intro ids
  induction ids with
  | nil =>
      intro t u hI _ _
      exact ⟨t, u, rfl, hI, by simp, by simp⟩
  | cons a rest ih =>
      intro t u hI hids hcap
      have hlen : u.length < 2 ^ m := by
        simp only [List.length_cons] at hcap
        omega
      obtain ⟨t1, u1, heq1, hI1, hmem1, hlen1⟩ := hmInsert_inv m t u a hI
        hlen (hids a (List.mem_cons_self a rest))
      rw [List.foldl_cons, heq1]
      obtain ⟨t2, u2, heq2, hI2, hmem2, hlen2⟩ := ih t1 u1 hI1
        (fun x hx => hids x (List.mem_cons_of_mem a hx))
        (by simp only [List.length_cons] at hcap; omega)
      refine ⟨t2, u2, heq2, hI2, ?_, ?_⟩
      · intro x
        rw [hmem2 x, hmem1 x]
        simp only [List.mem_cons]
        tauto
      · simp only [List.length_cons]
        omega

/-! ## Claim theorems -/

/-- C9: `map(id, default_val)` on a built `CpuIdHashMap` returns exactly
`default_val` for an id never inserted (and, being a total function, never
throws); for an id inserted during `Init`, it returns that id's compacted
index — its position in the unique-id list — which is less than the number
of unique ids. The unique-id list holds exactly the distinct input ids. -/
theorem cpuIdHashMap_map_correct (m : Nat) (ids : List Int)
    (id default_val : Int) (hids : ∀ x ∈ ids, x ≠ kEmptyKey)
    (hcap : ids.length < 2 ^ m) :
    (∀ x, x ∈ (CpuIdHashMapInit m ids).uniques ↔ x ∈ ids) ∧
    (id ∉ ids →
      CpuIdHashMapSingle (CpuIdHashMapInit m ids) id default_val =
        default_val) ∧
    (id ∈ ids →
      CpuIdHashMapSingle (CpuIdHashMapInit m ids) id default_val =
        ((CpuIdHashMapInit m ids).uniques.indexOf id : Int) ∧
      (CpuIdHashMapInit m ids).uniques.indexOf id <
        (CpuIdHashMapInit m ids).uniques.length) := by
  obtain ⟨t2, u2, heq, hI, hmem, _⟩ := hmInit_fold m ids
    (List.replicate (2 ^ m) (kEmptyKey, kEmptyKey)) [] (hashInv_init m)
    hids (by simpa using Nat.le_of_lt hcap)
  have hinit : CpuIdHashMapInit m ids = ⟨2 ^ m, t2, u2⟩ := heq
  rw [hinit]
  obtain ⟨hlt, hkeys, hreach, hdist, hnd, hnemp⟩ := hI
  have hmemiff : ∀ x, x ∈ u2 ↔ x ∈ ids := by
    intro x
    rw [hmem x]
    simp
  refine ⟨hmemiff, ?_, ?_⟩
  · intro hnotin
    have hnu : id ∉ u2 := fun h => hnotin ((hmemiff id).mp h)
    unfold CpuIdHashMapSingle
    refine hmMapLoop_absent t2 (2 ^ m) id default_val ?_ (2 ^ m) 0
    intro k
    rcases hkeys _ (probeAt_lt _ (two_pow_pos m) id k) with he | ⟨hm2, _⟩
    · exact Or.inr he
    · left
      intro hh
      rw [hh] at hm2
      exact hnu hm2
  · intro hin
    have hu : id ∈ u2 := (hmemiff id).mpr hin
    obtain ⟨j, hj, hkeyj, hbef⟩ := hreach id hu
    have hres : hmMapLoop t2 (2 ^ m) id default_val (2 ^ m) 0 =
        (if slotKey t2 (probeAt (2 ^ m) id j) = kEmptyKey then default_val
         else slotVal t2 (probeAt (2 ^ m) id j)) :=
      hmMapLoop_found t2 (2 ^ m) id default_val (2 ^ m) 0 j
        (Nat.zero_le j) (by omega) (Or.inl hkeyj)
        (fun k2 _ h2 hh => by
          rcases hh with hh | hh
          · exact (hbef k2 h2).2 hh
          · exact (hbef k2 h2).1 hh)
    have hne : slotKey t2 (probeAt (2 ^ m) id j) ≠ kEmptyKey := by
      rw [hkeyj]
      exact fun h => hnemp (h ▸ hu)
    unfold CpuIdHashMapSingle
    rw [hres, if_neg hne]
    have hval : slotVal t2 (probeAt (2 ^ m) id j) =
        u2.indexOf (slotKey t2 (probeAt (2 ^ m) id j)) := by
      rcases hkeys _ (probeAt_lt _ (two_pow_pos m) id j) with he | ⟨_, hv⟩
      · exact absurd he hne
      · exact hv
    rw [hval, hkeyj]
    exact ⟨rfl, List.indexOf_lt_length.mpr hu⟩

/-- Witness for `cpuIdHashMap_map_correct`: capacity `4`, input ids
`[5, 7, 5]`, present id `5` and absent id `3`, default `-7`. -/
theorem cpuIdHashMap_map_correct_witness :
    (CpuIdHashMapSingle (CpuIdHashMapInit 2 [5, 7, 5]) 5 (-7) =
      ((CpuIdHashMapInit 2 [5, 7, 5]).uniques.indexOf 5 : Int) ∧
      (CpuIdHashMapInit 2 [5, 7, 5]).uniques.indexOf 5 <
        (CpuIdHashMapInit 2 [5, 7, 5]).uniques.length) ∧
    CpuIdHashMapSingle (CpuIdHashMapInit 2 [5, 7, 5]) 3 (-7) = -7 :=
  ⟨(cpuIdHashMap_map_correct 2 [5, 7, 5] 5 (-7) (by decide)
      (by decide)).2.2 (by decide),
   (cpuIdHashMap_map_correct 2 [5, 7, 5] 3 (-7) (by decide)
      (by decide)).2.1 (by decide)⟩

/-- C4 counterexample: the top-k pick uses `std::sort`, which is not
stable; on a row with equal weights `[1, 1]`, `k = 2`, descending, the
outcome `[1, 0]` is admitted by the sort's postcondition, while a stable
sort (the claimed behavior) yields `[0, 1]`. -/
theorem topk_stable_tiebreak_counterexample :
    TopkPickOutcome [1, 1] none false 2 0 2 [1, 0] ∧
    topkStableOut [1, 1] none false 2 0 2 = [0, 1] ∧
    ([1, 0] : List Nat) ≠ [0, 1] :=
  ⟨⟨[1, 0], by decide, by decide, rfl⟩, by decide, by decide⟩

/-- C4 (amended): every top-k pick outcome consists of `k` distinct row
positions, ordered so that no later pick strictly beats an earlier one
under the ascending/descending comparator, and no unpicked position of the
row strictly beats any picked one — but the order among equal weights is
whatever `std::sort` produced, not necessarily the original order. On
weights `[3, 1, 4, 3/2]` with `k = 2`, descending (all weights distinct),
the outcome is uniquely `[2, 0]`: position 2 (weight 4) then position 0
(weight 3). -/
theorem topk_pick_extremal :
    (∀ (wdata : List Rat) (data : Option (List Nat)) (ascending : Bool)
        (k off len : Nat) (out : List Nat), k ≤ len →
      TopkPickOutcome wdata data ascending k off len out →
      out.length = k ∧ out.Nodup ∧
      (∀ p ∈ out, p ∈ List.range' off len) ∧
      List.Pairwise (fun i j => ¬ topkCmp wdata data ascending j i) out ∧
      (∀ p ∈ out, ∀ q ∈ List.range' off len, q ∉ out →
        ¬ topkCmp wdata data ascending q p)) ∧
    (∀ out, TopkPickOutcome [3, 1, 4, mkRat 3 2] none false 2 0 4 out →
      out = [2, 0]) := by
  constructor
  · intro wdata data ascending k off len out hk hout
    obtain ⟨idx, hperm, hpair, hout⟩ := hout
    subst hout
    have hlen : idx.length = len := by
      rw [hperm.length_eq, List.length_range']
    refine ⟨?_, ?_, ?_, ?_, ?_⟩
    · rw [List.length_take, hlen]
      exact Nat.min_eq_left hk
    · exact (hperm.nodup_iff.mpr (List.nodup_range' off len)).sublist
        (List.take_sublist k idx)
    · intro p hp
      exact hperm.mem_iff.mp (List.take_subset k idx hp)
    · exact hpair.sublist (List.take_sublist k idx)
    · intro p hp q hq hqout
      have hqidx : q ∈ idx := hperm.mem_iff.mpr hq
      have hsplit := List.take_append_drop k idx
      have hpairs := List.pairwise_append.mp (hsplit ▸ hpair)
      have hqdrop : q ∈ idx.drop k := by
        rcases List.mem_append.mp (hsplit ▸ hqidx) with h | h
        · exact absurd h hqout
        · exact h
      exact hpairs.2.2 p hp q hqdrop
  · intro out hout
    obtain ⟨idx, hperm, hpair, hout⟩ := hout
    have hperm2 : idx.Perm [2, 0, 3, 1] := hperm.trans (by decide)
    have hidx : idx = [2, 0, 3, 1] := by
      refine pairwise_perm_eq hperm2 hpair (by decide) ?_
      intro a ha b hb
      have ha4 : a ∈ List.range' 0 4 := hperm.mem_iff.mp ha
      have hb4 : b ∈ List.range' 0 4 := hperm.mem_iff.mp hb
      have hdec : ∀ x ∈ List.range' 0 4, ∀ y ∈ List.range' 0 4,
          ¬ topkCmp [3, 1, 4, mkRat 3 2] none false y x →
          ¬ topkCmp [3, 1, 4, mkRat 3 2] none false x y → x = y := by decide
      exact hdec a ha4 b hb4
    rw [hout, hidx]
    rfl

/-- Witness for `topk_pick_extremal` at the concrete row of weights
`[3, 1, 4, 3/2]`, `k = 2`, descending, outcome `[2, 0]` (via the sorted
permutation `[2, 0, 3, 1]`). -/
theorem topk_pick_extremal_witness :
    ([2, 0] : List Nat).length = 2 ∧ ([2, 0] : List Nat).Nodup ∧
    (∀ p ∈ ([2, 0] : List Nat), p ∈ List.range' 0 4) ∧
    List.Pairwise
      (fun i j => ¬ topkCmp [3, 1, 4, mkRat 3 2] none false j i) [2, 0] ∧
    (∀ p ∈ ([2, 0] : List Nat), ∀ q ∈ List.range' 0 4,
      q ∉ ([2, 0] : List Nat) →
      ¬ topkCmp [3, 1, 4, mkRat 3 2] none false q p) :=
  topk_pick_extremal.1 [3, 1, 4, mkRat 3 2] none false 2 0 4 [2, 0]
    (by decide) ⟨[2, 0, 3, 1], by decide, by decide, rfl⟩

/-- C2: `InferBinaryFeatureShape` yields `(4, 5)` on `(4, 1)` vs `(1, 5)`,
`(3,)` on `(3,)` vs `(3,)`, and a shape-mismatch error on `(2,)` vs `(3,)`;
in general any right-aligned axis pair with differing dimensions, neither
`1`, is an error, and otherwise the output dimension at each axis is the
maximum of the two aligned dimensions. -/
theorem inferBinaryFeatureShape_correct :
    InferBinaryFeatureShape [4, 1] [1, 5] = Except.ok [4, 5] ∧
    InferBinaryFeatureShape [3] [3] = Except.ok [3] ∧
    (∃ e, InferBinaryFeatureShape [2] [3] = Except.error e) ∧
    ∀ lts rts : List Int,
      ((∃ j, j < max lts.length rts.length ∧ bcastBad lts rts j) →
        ∃ e, InferBinaryFeatureShape lts rts = Except.error e) ∧
      (∀ out, InferBinaryFeatureShape lts rts = Except.ok out →
        out = ((List.range (max lts.length rts.length)).map
          (fun j => max (bcastDim lts j) (bcastDim rts j))).reverse) := by
  refine ⟨rfl, rfl, ⟨_, rfl⟩, ?_⟩
  intro lts rts
  constructor
  · rintro ⟨j, hj, hbad⟩
    obtain ⟨e, he⟩ := calcBcast_foldlM_err lts rts
      (List.range (max lts.length rts.length))
      ⟨j, List.mem_range.mpr hj, hbad⟩ ⟨[], [], [], [], 0⟩
    refine ⟨e, ?_⟩
    unfold InferBinaryFeatureShape CalcBcastInfo
    simp only [he]
  · intro out hout
    by_cases hok : ∀ j ∈ List.range (max lts.length rts.length),
        ¬ bcastBad lts rts j
    · obtain ⟨st2, hfold, hro⟩ := calcBcast_foldlM_ok lts rts _ hok
        ⟨[], [], [], [], 0⟩
      unfold InferBinaryFeatureShape CalcBcastInfo at hout
      simp only [hfold] at hout
      by_cases ha : st2.accum ≠ 0
      · rw [if_pos ha] at hout
        simp only [Except.ok.injEq] at hout
        rw [← hout]
        simp [hro]
      · rw [if_neg ha] at hout
        simp only [Except.ok.injEq] at hout
        rw [← hout]
        simp [hro]
    · push_neg at hok
      obtain ⟨j, hjmem, hbad⟩ := hok
      obtain ⟨e, he⟩ := calcBcast_foldlM_err lts rts
        (List.range (max lts.length rts.length)) ⟨j, hjmem, hbad⟩
        ⟨[], [], [], [], 0⟩
      unfold InferBinaryFeatureShape CalcBcastInfo at hout
      simp only [he] at hout
      exact absurd hout (by simp)

/-- C10: `COORemoveIf` keeps `num_rows` and `num_cols`, and its `(row, col)`
pairs are exactly the subsequence, in original relative order, of the input
entries whose associated value (indexed by the entry's edge id) differs from
the criteria value. -/
theorem cooRemoveIf_keeps_exactly_noncriteria (coo : COOMatrix)
    (values : List Int) (criteria : Int) :
    (COORemoveIf coo values criteria).num_rows = coo.num_rows ∧
    (COORemoveIf coo values criteria).num_cols = coo.num_cols ∧
    ((COORemoveIf coo values criteria).row.zip
        (COORemoveIf coo values criteria).col) =
      ((List.range coo.row.length).filter
          (fun i => values.getD (cooEid coo.data i) 0 ≠ criteria)).map
        (fun i => (coo.row.getD i 0, coo.col.getD i 0)) := by
  refine ⟨rfl, rfl, ?_⟩
  show ((List.range coo.row.length).foldl
      (cooRemoveIfStep coo values criteria) ([], [], [])).1.zip
      ((List.range coo.row.length).foldl
      (cooRemoveIfStep coo values criteria) ([], [], [])).2.1 = _
  rw [cooRemoveIf_foldl]
  simp [List.zip_map']

/-- C3: the CSR-execution SpMM folds the binary operator over the row's
nonzeros starting from the reduction identity; with copy-lhs and sum
reduction (identity `0`) every output element is the sum of the lhs features
of the row's neighbors, and on the CSR `indptr=[0,2,3]`, `indices=[0,1,0]`
with lhs features `[10, 20]`, `out[0] = 30` and `out[1] = 10`. -/
theorem spmmCsr_sum_copy_lhs :
    (∀ (ufeat efeat : Nat → Nat → Int) (indptr indices edge_map : Nat → Nat)
      (ty tx : Nat),
      SpMMCsrKernel 0 (fun a _ => a) (· + ·) ufeat efeat indptr indices
          edge_map ty tx =
        ((List.range' (indptr ty) (indptr (ty + 1) - indptr ty)).map
          (fun i => ufeat (indices i) tx)).sum) ∧
    SpMMCsrKernel 0 (fun a _ => a) (· + ·) (fun n _ => [10, 20].getD n 0)
      (fun _ _ => 0) (fun r => [0, 2, 3].getD r 0)
      (fun i => [0, 1, 0].getD i 0) id 0 0 = 30 ∧
    SpMMCsrKernel 0 (fun a _ => a) (· + ·) (fun n _ => [10, 20].getD n 0)
      (fun _ _ => 0) (fun r => [0, 2, 3].getD r 0)
      (fun i => [0, 1, 0].getD i 0) id 1 0 = 10 := by
  refine ⟨?_, by decide, by decide⟩
  intro ufeat efeat indptr indices edge_map ty tx
  unfold SpMMCsrKernel
  rw [foldl_add_sum (fun i => ufeat (indices i) tx)]
  simp

/-- Witness for `inferBinaryFeatureShape_correct`: the general direction
applied at the concrete shapes `(2,)` vs `(3,)` (error) and `(4, 1)` vs
`(1, 5)` (output `[4, 5]`). -/
theorem inferBinaryFeatureShape_correct_witness :
    (∃ e, InferBinaryFeatureShape [2] [3] = Except.error e) ∧
    [(4 : Int), 5] = ((List.range (max ([4, 1] : List Int).length
        ([1, 5] : List Int).length)).map
      (fun j => max (bcastDim [4, 1] j) (bcastDim [1, 5] j))).reverse :=
  ⟨(inferBinaryFeatureShape_correct.2.2.2 [2] [3]).1 ⟨0, by decide, by decide⟩,
   (inferBinaryFeatureShape_correct.2.2.2 [4, 1] [1, 5]).2 [4, 5] rfl⟩

/-- C1: per queried row of neighbor-list length `len`, uniform row-wise
sampling over CSR or COO picks exactly `len` edges when `num_samples = -1`;
with replacement, `num_samples` edges when `len > 0` and `0` when `len = 0`;
and `min len num_samples` edges without replacement. -/
theorem uniform_sampling_picked_counts (mat : CSRMatrix) (coo : COOMatrix)
    (pfc pfo : Nat → Nat → Nat → Nat → Nat → Nat) (r : Nat)
    (num_samples : Int) (replace : Bool) :
    (num_samples = -1 →
      (CSRUniformPickedRow mat num_samples replace pfc r).length =
        csrRowLen mat r ∧
      (COOUniformPickedRow coo num_samples replace pfo r).length =
        cooRowLen coo r) ∧
    (num_samples ≠ -1 → 0 ≤ num_samples → replace = true →
      (0 < csrRowLen mat r →
        (CSRUniformPickedRow mat num_samples replace pfc r).length =
          num_samples.toNat) ∧
      (csrRowLen mat r = 0 →
        (CSRUniformPickedRow mat num_samples replace pfc r).length = 0) ∧
      (0 < cooRowLen coo r →
        (COOUniformPickedRow coo num_samples replace pfo r).length =
          num_samples.toNat) ∧
      (cooRowLen coo r = 0 →
        (COOUniformPickedRow coo num_samples replace pfo r).length = 0)) ∧
    (num_samples ≠ -1 → 0 ≤ num_samples → replace = false →
      (CSRUniformPickedRow mat num_samples replace pfc r).length =
        min (csrRowLen mat r) num_samples.toNat ∧
      (COOUniformPickedRow coo num_samples replace pfo r).length =
        min (cooRowLen coo r) num_samples.toNat) := by
  unfold CSRUniformPickedRow COOUniformPickedRow
  rw [length_rowWisePickRow, length_rowWisePickRow]
  unfold GetSamplingUniformNumPicksFn
  refine ⟨?_, ?_, ?_⟩
  · intro h; subst h; simp
  · intro h h0 hrep; subst hrep
    refine ⟨?_, ?_, ?_, ?_⟩ <;> intro hlen <;> simp [h] <;> omega
  · intro h h0 hrep; subst hrep
    constructor <;> simp [h] <;> omega

/-- Witness for `uniform_sampling_picked_counts` at the CSR
`indptr = [0, 2, 3]` / a COO with rows `[0, 0, 1]`, queried row `0`,
`num_samples = 1`, no replacement. -/
theorem uniform_sampling_picked_counts_witness :
    (CSRUniformPickedRow ⟨2, 3, [0, 2, 3], [0, 1, 0], none⟩ 1 false
        (fun _ _ _ _ j => j) 0).length =
      min (csrRowLen ⟨2, 3, [0, 2, 3], [0, 1, 0], none⟩ 0) (Int.toNat 1) ∧
    (COOUniformPickedRow ⟨2, 3, [0, 0, 1], [0, 1, 0], none⟩ 1 false
        (fun _ _ _ _ j => j) 0).length =
      min (cooRowLen ⟨2, 3, [0, 0, 1], [0, 1, 0], none⟩ 0) (Int.toNat 1) :=
  (uniform_sampling_picked_counts ⟨2, 3, [0, 2, 3], [0, 1, 0], none⟩
    ⟨2, 3, [0, 0, 1], [0, 1, 0], none⟩ (fun _ _ _ _ j => j)
    (fun _ _ _ _ j => j) 0 1 false).2.2 (by decide) (by decide) rfl

/-- C5 counterexample: on the row with probabilities `[0, 0, 5, 0]` (one
positive-weight edge), `num_samples = 2`, `replace = false`, the number of
picks is silently truncated to `1` and the row operation succeeds with
`Except.ok [2]` — no hard error is raised. -/
theorem prob_sampling_silent_truncation_counterexample :
    numPossiblePicks [0, 0, 5, 0] none 0 4 = 1 ∧ (1 : Nat) < 2 ∧
    GetSamplingNumPicksFn 2 [0, 0, 5, 0] false none 0 4 = 1 ∧
    CSRSamplingRowOutcome ⟨1, 4, [0, 4], [0, 1, 2, 3], none⟩ 2 [0, 0, 5, 0]
      false 0 (Except.ok [2]) := by
  refine ⟨by decide, by decide, by decide, ?_⟩
  exact sampling_pick_ok2 2 (by decide)

/-- C5 (amended): with `replace = false` and `num_samples ≠ -1`, every
possible result of a row of probability-weighted sampling is a success
carrying exactly `min num_samples (#positive-probability edges)` picked
positions — a row with fewer positive-probability edges than `num_samples`
is silently truncated, not a hard error (`num_samples = -1` still means
all qualifying edges). -/
theorem prob_sampling_truncates (mat : CSRMatrix) (num_samples : Int)
    (prob : List Rat) (r : Nat) (res : Except String (List Nat))
    (hns : num_samples ≠ -1) (h0 : 0 ≤ num_samples)
    (hres : CSRSamplingRowOutcome mat num_samples prob false r res) :
    ∃ out, res = Except.ok out ∧
      out.length = min num_samples.toNat
        (numPossiblePicks prob mat.data (csrRowOff mat r)
          (csrRowLen mat r)) := by
  unfold CSRSamplingRowOutcome SamplingPickOutcome at hres
  have hnp : (GetSamplingNumPicksFn num_samples prob false mat.data
      (csrRowOff mat r) (csrRowLen mat r)).toNat =
      min num_samples.toNat (numPossiblePicks prob mat.data
        (csrRowOff mat r) (csrRowLen mat r)) := by
    simp only [GetSamplingNumPicksFn, if_neg hns, Bool.false_eq_true,
      if_false]
    omega
  by_cases hcond : num_samples = -1 ∨ (false = false ∧ csrRowLen mat r =
      (GetSamplingNumPicksFn num_samples prob false mat.data
        (csrRowOff mat r) (csrRowLen mat r)).toNat)
  · rw [if_pos hcond] at hres
    rcases hcond with h | ⟨_, hlen⟩
    · exact absurd h hns
    · have hple : numPossiblePicks prob mat.data (csrRowOff mat r)
          (csrRowLen mat r) ≤ csrRowLen mat r :=
        numPossiblePicks_le_len _ _ _ _
      have heq : (samplingGather prob mat.data (csrRowOff mat r)
          (csrRowLen mat r)).length =
          (GetSamplingNumPicksFn num_samples prob false mat.data
            (csrRowOff mat r) (csrRowLen mat r)).toNat := by
        rw [samplingGather_length]
        omega
      rw [if_pos heq] at hres
      exact ⟨_, hres, by rw [samplingGather_length]; omega⟩
  · rw [if_neg hcond] at hres
    obtain ⟨out, hok, hlen, _, _⟩ := hres
    exact ⟨out, hok, by rw [hlen, hnp]⟩

/-- Witness for `prob_sampling_truncates` at the row of probabilities
`[0, 0, 5, 0]`, `num_samples = 2`, `replace = false`, result
`Except.ok [2]`. -/
theorem prob_sampling_truncates_witness :
    ∃ out, (Except.ok [2] : Except String (List Nat)) = Except.ok out ∧
      out.length = min (Int.toNat 2)
        (numPossiblePicks [0, 0, 5, 0]
          (⟨1, 4, [0, 4], [0, 1, 2, 3], none⟩ : CSRMatrix).data
          (csrRowOff ⟨1, 4, [0, 4], [0, 1, 2, 3], none⟩ 0)
          (csrRowLen ⟨1, 4, [0, 4], [0, 1, 2, 3], none⟩ 0)) :=
  prob_sampling_truncates ⟨1, 4, [0, 4], [0, 1, 2, 3], none⟩ 2 [0, 0, 5, 0]
    0 (Except.ok [2]) (by decide) (by decide)
    (sampling_pick_ok2 2 (by decide))

/-- C6: probability-weighted sampling never picks a zero-probability edge:
every successfully picked position of any row comes from a position of the
row whose probability is strictly positive; and on the row with
probabilities `[0, 0, 5, 0]`, `num_samples = 1`, `replace = false`, every
possible result is exactly `Except.ok [2]` — position 2 is selected
deterministically. -/
theorem prob_sampling_zero_excluded :
    (∀ (num_samples : Int) (prob : List Rat) (replace : Bool)
        (data : Option (List Nat)) (off len num_picks : Nat)
        (res : Except String (List Nat)) (out : List Nat),
      SamplingPickOutcome num_samples prob replace data off len num_picks
        res →
      res = Except.ok out →
      ∀ p ∈ out, ∃ j, j < len ∧ p = off + j ∧
        0 < prob.getD (cooEid data (off + j)) 0) ∧
    (∀ res, CSRSamplingRowOutcome ⟨1, 4, [0, 4], [0, 1, 2, 3], none⟩ 1
      [0, 0, 5, 0] false 0 res → res = Except.ok [2]) := by
  constructor
  · intro num_samples prob replace data off len num_picks res out hres hok
    unfold SamplingPickOutcome at hres
    by_cases hcond : num_samples = -1 ∨ (replace = false ∧ len = num_picks)
    · rw [if_pos hcond] at hres
      by_cases hchk : (samplingGather prob data off len).length = num_picks
      · rw [if_pos hchk] at hres
        rw [hres] at hok
        have hout : out = samplingGather prob data off len :=
          (Except.ok.injEq _ _ ▸ hok).symm ▸ rfl
        intro p hp
        rw [hout] at hp
        unfold samplingGather at hp
        obtain ⟨j, hj, hpj⟩ := List.mem_map.mp hp
        have hj2 := List.mem_filter.mp hj
        exact ⟨j, List.mem_range.mp hj2.1, hpj.symm, by
          simpa using hj2.2⟩
      · rw [if_neg hchk] at hres
        rw [hres] at hok
        exact absurd hok (by simp)
    · rw [if_neg hcond] at hres
      obtain ⟨out2, hok2, _, hpos, _⟩ := hres
      rw [hok2] at hok
      have : out2 = out := by simpa using hok
      subst this
      exact hpos
  · intro res hres
    unfold CSRSamplingRowOutcome SamplingPickOutcome at hres
    rw [if_neg (by decide)] at hres
    obtain ⟨out, hok, hlen, hpos, _⟩ := hres
    have hnp : out.length = 1 := hlen
    obtain ⟨p, hp⟩ := List.length_eq_one.mp hnp
    subst hp
    obtain ⟨j, hj4, hpj, hjpos⟩ := hpos p (List.mem_singleton_self p)
    have hlen4 : csrRowLen ⟨1, 4, [0, 4], [0, 1, 2, 3], none⟩ 0 = 4 := rfl
    have hoff0 : csrRowOff ⟨1, 4, [0, 4], [0, 1, 2, 3], none⟩ 0 = 0 := rfl
    rw [hlen4] at hj4
    rw [hoff0] at hpj hjpos
    have hj2 : j = 2 := by
      interval_cases j <;> revert hjpos <;> decide
    rw [hok, hpj, hj2]

/-- C7 counterexample: compacting `row = [7]` with leading ids `[2]` does
*not* map the leading id to compacted index `0`: the reverse mapping is
`[7, 2]` (descending sorted unique union), so index `0` stands for id `7`
and the leading id `2` sits at index `1`, outside `[0, 1)` — while the
claim requires the reverse mapping to start with the leading ids. -/
theorem compact_leading_not_low_range_counterexample :
    CompactCOORetIdx [7] (some [2]) = [7, 2] ∧
    (CompactCOORetIdx [7] (some [2])).take 1 ≠ [2] ∧
    (CompactIndices [7] (some [2])).1 = [0] := by
  refine ⟨by decide, by decide, by decide⟩

/-- C7 (amended): graph compaction with a leading prefix assigns *every*
id — leading or not — the compacted index `U - 1 - rank`, where `rank` is
the id's position in the ascending-sorted duplicate-free union of the
leading ids and the row ids and `U` that union's size; leading ids only
enlarge the id universe and get no reserved low index range. The returned
reverse mapping is the descending-sorted unique union, consistent with
this assignment: looking the compacted index back up yields the original
id. -/
theorem compact_assigns_reverse_sorted_rank (row ld : List Int) (i : Nat)
    (hi : i < row.length) :
    (CompactIndices row (some ld)).2.Sorted (· < ·) ∧
    (∀ x : Int, x ∈ (CompactIndices row (some ld)).2 ↔ x ∈ ld ++ row) ∧
    (CompactIndices row (some ld)).1.length = row.length ∧
    (CompactIndices row (some ld)).1.getD i 0 =
      ((CompactIndices row (some ld)).2.length : Int) - 1 -
        ((CompactIndices row (some ld)).2.indexOf (row.getD i 0)) ∧
    (CompactCOORetIdx row (some ld)).getD
      ((CompactIndices row (some ld)).1.getD i 0).toNat 0 =
      row.getD i 0 := by
  refine ⟨sortedUnique_sorted _, ?_, ?_, compactIndices_new_row_getD row ld
    i hi, ?_⟩
  · intro x
    show x ∈ sortedUnique (compactCat row (some ld)) ↔ _
    rw [mem_sortedUnique]
    show x ∈ ld ++ sortRow row ↔ _
    rw [List.mem_append, List.mem_append, (sortRow_perm row).mem_iff]
  · show ((revSortIdx row).map _).length = _
    simp [revSortIdx_length]
  · have hk := compactIndices_indexOf_lt row ld i hi
    rw [compactIndices_new_row_getD row ld i hi]
    set u := (CompactIndices row (some ld)).2 with hu
    set k := u.indexOf (row.getD i 0) with hkdef
    have htn : ((u.length : Int) - 1 - k).toNat = u.length - 1 - k := by
      omega
    rw [htn]
    show u.reverse.getD (u.length - 1 - k) 0 = _
    have hb : u.length - 1 - k < u.reverse.length := by
      rw [List.length_reverse]; omega
    rw [List.getD_eq_getElem _ _ hb, List.getElem_reverse]
    have hik : u.length - 1 - (u.length - 1 - k) = k := by omega
    simp_rw [hik]
    exact List.getElem_indexOf hk

/-- Witness for `compact_assigns_reverse_sorted_rank` at `row = [7]`,
leading ids `[2]`, position `0`. -/
theorem compact_assigns_reverse_sorted_rank_witness :
    (CompactIndices [7] (some [2])).2.Sorted (· < ·) ∧
    (∀ x : Int, x ∈ (CompactIndices [7] (some [2])).2 ↔
      x ∈ ([2] : List Int) ++ [7]) ∧
    (CompactIndices [7] (some [2])).1.length = ([7] : List Int).length ∧
    (CompactIndices [7] (some [2])).1.getD 0 0 =
      ((CompactIndices [7] (some [2])).2.length : Int) - 1 -
        ((CompactIndices [7] (some [2])).2.indexOf
          (([7] : List Int).getD 0 0)) ∧
    (CompactCOORetIdx [7] (some [2])).getD
      ((CompactIndices [7] (some [2])).1.getD 0 0).toNat 0 =
      ([7] : List Int).getD 0 0 :=
  compact_assigns_reverse_sorted_rank [7] [2] 0 (by decide)

/-- C8 counterexample: `UniqueAndCompact([5], [5], [1])` succeeds even
though dst id `5` does not occur in `unique_dst_ids = [1]` — the check
accepts any dst id present in the union of `unique_dst_ids` and the
residual src ids, so no out-of-range error is raised. -/
theorem uniqueAndCompact_no_error_counterexample :
    UniqueAndCompact [5] [5] [1] = Except.ok ([1, 5], [1], [1]) ∧
    (5 : Int) ∉ ([1] : List Int) := ⟨rfl, by decide⟩

/-- C8 (amended): `UniqueAndCompact(src_ids, dst_ids, unique_dst_ids)`
raises the out-of-range error iff some id of `dst_ids` occurs neither in
`unique_dst_ids` nor in `src_ids`; when every dst id occurs in that union,
the call succeeds and returns the compacted id universe (`unique_dst_ids`
followed by the sorted unique non-dst src ids) together with remapped src
and dst ids of the input lengths. -/
theorem uniqueAndCompact_out_of_range_iff (src dst udst : List Int) :
    ((∃ e, UniqueAndCompact src dst udst = Except.error e) ↔
      ∃ d ∈ dst, d ∉ udst ∧ d ∉ src) ∧
    ((∀ d ∈ dst, d ∈ udst ∨ d ∈ src) →
      ∃ ns nd, UniqueAndCompact src dst udst =
        Except.ok (udst ++ sortedUnique (src.filter
          (fun s => !(binContains (sortInts udst) s))), ns, nd) ∧
        ns.length = src.length ∧ nd.length = dst.length) := by
  have hsorted := sortRow_sorted (udst ++ sortedUnique (src.filter
    (fun s => !(binContains (sortInts udst) s))))
  have hcheck : uacCheck (sortRow (udst ++ sortedUnique (src.filter
      (fun s => !(binContains (sortInts udst) s))))) dst = true ↔
      ∀ d ∈ dst, d ∈ udst ∨ d ∈ src := by
    rw [uacCheck_iff _ hsorted dst]
    constructor
    · intro h d hd
      have h2 := h d hd
      rw [(sortRow_perm _).mem_iff] at h2
      exact (mem_uac_real_order src udst d).mp h2
    · intro h d hd
      rw [(sortRow_perm _).mem_iff]
      exact (mem_uac_real_order src udst d).mpr (h d hd)
  constructor
  · constructor
    · rintro ⟨e, he⟩
      by_contra hno
      have hall : ∀ d ∈ dst, d ∈ udst ∨ d ∈ src := by
        intro d hd
        by_cases h1 : d ∈ udst
        · exact Or.inl h1
        · by_cases h2 : d ∈ src
          · exact Or.inr h2
          · exact absurd ⟨d, hd, h1, h2⟩ hno
      have hc := hcheck.mpr hall
      simp only [UniqueAndCompact] at he
      rw [if_pos hc] at he
      exact absurd he (by simp)
    · rintro ⟨d, hd, hdu, hds⟩
      have hcf : ¬ (uacCheck (sortRow (udst ++ sortedUnique (src.filter
          (fun s => !(binContains (sortInts udst) s))))) dst = true) := by
        intro h
        exact (hcheck.mp h d hd).elim hdu hds
      refine ⟨"Some ids not found.", ?_⟩
      simp only [UniqueAndCompact]
      rw [if_neg hcf]
  · intro hall
    have hc := hcheck.mpr hall
    simp only [UniqueAndCompact]
    rw [if_pos hc]
    exact ⟨_, _, rfl, by simp, by simp⟩

/-- Witness for `uniqueAndCompact_out_of_range_iff`: the success direction
at `src = [5]`, `dst = [5]`, `unique_dst_ids = [1]`. -/
theorem uniqueAndCompact_out_of_range_iff_witness :
    ∃ ns nd, UniqueAndCompact [5] [5] [1] =
      Except.ok (([1] : List Int) ++ sortedUnique (([5] : List Int).filter
        (fun s => !(binContains (sortInts [1]) s))), ns, nd) ∧
      ns.length = ([5] : List Int).length ∧
      nd.length = ([5] : List Int).length :=
  (uniqueAndCompact_out_of_range_iff [5] [5] [1]).2 (by decide)

/-- Witness for `prob_sampling_zero_excluded` at the row of probabilities
`[0, 0, 5, 0]`, `num_samples = 1`, result `Except.ok [2]`. -/
theorem prob_sampling_zero_excluded_witness :
    ∀ p ∈ ([2] : List Nat), ∃ j, j < 4 ∧ p = 0 + j ∧
      0 < ([0, 0, 5, 0] : List Rat).getD (cooEid none (0 + j)) 0 :=
  prob_sampling_zero_excluded.1 1 [0, 0, 5, 0] false none 0 4 1
    (Except.ok [2]) [2] (sampling_pick_ok2 1 (by decide)) rfl

end DGL
